import Mathlib

/-!
# PrivaSend core pipeline — shallow embedding and verification

This file embeds the core PII pipeline of the PrivaSend repository
(`src/tools/detect_pii.py`, `src/tools/redact.py`, `src/tools/llm_validator.py`,
constants from `src/tools/config.py`) and proves/refutes the frozen claims
about it.

Modelling conventions:
* Python `str` is modelled as `List Char`; `text[a:b]` slicing (with its
  clamping behaviour) is `pySlice`.
* Python `float` confidences are modelled as `ℚ`; the numeric literals of
  `config.py` are carried over exactly as rationals.
* The external capabilities that the code calls — the Python `re` engine
  backing `_detect_regex`, the Presidio/spaCy recognizer backing
  `analyzer.analyze`, the Ollama HTTP oracle backing `_call_ollama`, and the
  wall clock `time.monotonic` — are inputs of the embedded functions
  (a list of raw recognizer spans, an oracle function, an elapsed-time
  sequence).  Everything the repository itself computes from those inputs is
  embedded directly from the source.
* Python's stable `sorted`/`list.sort` with a key function is modelled by a
  stable insertion sort `sortStable` over the corresponding boolean total
  preorder; a stable sort's output is uniquely determined by the preorder, so
  this is extensionally the same function as CPython's Timsort.
* `dataclass(order=True)` on `DetectedEntity` makes Python `==` compare only
  the fields with `compare=True`, i.e. `(start, end)`.  `list.remove` in
  `_merge_results` therefore removes the *first element with equal span*,
  which `spanEqB` models.
-/

namespace PrivaSend

/-- `PIIType` enumeration from `src/tools/detect_pii.py`. -/
inductive PIIType where
  | EMAIL | PHONE | SSN | CREDIT_CARD | API_KEY | AADHAAR | PAN | PASSPORT
  | DRIVERS_LICENSE | IBAN | BANK_ACCOUNT | DATE_OF_BIRTH | MEDICAL_RECORD
  | IP_ADDRESS | MAC_ADDRESS | VIN | URL_WITH_CREDENTIALS | UPI_ID
  | USERNAME_PASSWORD | CRYPTO_WALLET | UK_NI_NUMBER | CANADIAN_SIN | US_EIN
  | VEHICLE_PLATE | SWIFT_BIC | PERSON | ADDRESS | ORGANIZATION | LOCATION
  | MEDICAL_CONDITION | DATE_TIME | CREDENTIAL
  deriving DecidableEq, Repr, Fintype

/-- The `.value` string of each `PIIType` member (the enum is a `str` enum). -/
def typeStr : PIIType → List Char
  | .EMAIL => "EMAIL".data
  | .PHONE => "PHONE".data
  | .SSN => "SSN".data
  | .CREDIT_CARD => "CREDIT_CARD".data
  | .API_KEY => "API_KEY".data
  | .AADHAAR => "AADHAAR".data
  | .PAN => "PAN".data
  | .PASSPORT => "PASSPORT".data
  | .DRIVERS_LICENSE => "DRIVERS_LICENSE".data
  | .IBAN => "IBAN".data
  | .BANK_ACCOUNT => "BANK_ACCOUNT".data
  | .DATE_OF_BIRTH => "DATE_OF_BIRTH".data
  | .MEDICAL_RECORD => "MEDICAL_RECORD".data
  | .IP_ADDRESS => "IP_ADDRESS".data
  | .MAC_ADDRESS => "MAC_ADDRESS".data
  | .VIN => "VIN".data
  | .URL_WITH_CREDENTIALS => "URL_WITH_CREDENTIALS".data
  | .UPI_ID => "UPI_ID".data
  | .USERNAME_PASSWORD => "USERNAME_PASSWORD".data
  | .CRYPTO_WALLET => "CRYPTO_WALLET".data
  | .UK_NI_NUMBER => "UK_NI_NUMBER".data
  | .CANADIAN_SIN => "CANADIAN_SIN".data
  | .US_EIN => "US_EIN".data
  | .VEHICLE_PLATE => "VEHICLE_PLATE".data
  | .SWIFT_BIC => "SWIFT_BIC".data
  | .PERSON => "PERSON".data
  | .ADDRESS => "ADDRESS".data
  | .ORGANIZATION => "ORGANIZATION".data
  | .LOCATION => "LOCATION".data
  | .MEDICAL_CONDITION => "MEDICAL_CONDITION".data
  | .DATE_TIME => "DATE_TIME".data
  | .CREDENTIAL => "CREDENTIAL".data

/-- `DetectionSource` enumeration from `src/tools/detect_pii.py`. -/
inductive DetectionSource where
  | regex | presidio
  deriving DecidableEq, Repr

/-- `DetectedEntity` dataclass from `src/tools/detect_pii.py`.
The Python field `end` is renamed `stop` (`end` is a Lean keyword). -/
structure DetectedEntity where
  start : Nat
  stop : Nat
  pii_type : PIIType
  value : List Char
  confidence : ℚ
  source : DetectionSource
  pre_llm_confidence : Option ℚ := none
  llm_validated : Bool := false
  deriving DecidableEq, Repr

/-- Python `==` on `DetectedEntity`: `dataclass(order=True)` compares only the
fields without `compare=False`, i.e. `(start, end)`.  This is the equality
used by `merged.remove(existing)` in `_merge_results`. -/
def spanEqB (a b : DetectedEntity) : Bool :=
  a.start == b.start && a.stop == b.stop

-- ---------------------------------------------------------------------------
-- Constants from src/tools/config.py
-- ---------------------------------------------------------------------------

def LLM_CONFIDENCE_LOW : ℚ := mkRat 60 100
def LLM_CONFIDENCE_HIGH : ℚ := mkRat 85 100
def REDACTION_THRESHOLD : ℚ := mkRat 65 100
def LLM_CONTEXT_CHARS : Nat := 50
def LLM_TOTAL_BUDGET : ℚ := 45

-- ---------------------------------------------------------------------------
-- Python string primitives
-- ---------------------------------------------------------------------------

/-- Python slicing `text[a:b]` for `0 ≤ a, b` (clamping to the length and
returning `[]` when `a ≥ b`, as Python does). -/
def pySlice (text : List Char) (a b : Nat) : List Char :=
  (text.take b).drop a

@[simp] theorem pySlice_len_le (text : List Char) (a b : Nat) :
    (pySlice text a b).length = min b text.length - a := by
  simp [pySlice]

theorem pySlice_zero (text : List Char) (b : Nat) :
    pySlice text 0 b = text.take b := by
  simp [pySlice]

theorem pySlice_all (text : List Char) :
    pySlice text 0 text.length = text := by
  simp [pySlice]

/-- A slice of `text` is a contiguous substring of `text`. -/
theorem pySlice_substring (text : List Char) (a b : Nat) :
    pySlice text a b <:+: text := by
  have h1 : pySlice text a b <:+ text.take b := List.drop_suffix _ _
  exact h1.isInfix.trans (text.take_prefix b).isInfix

theorem take_append_pySlice (text : List Char) {a b : Nat} (hab : a ≤ b) :
    text.take a ++ pySlice text a b = text.take b := by
  unfold pySlice
  conv_lhs =>
    rw [show text.take a = (text.take b).take a by
      rw [List.take_take, Nat.min_eq_left hab]]
  exact List.take_append_drop a (text.take b)

theorem pySlice_append_drop (text : List Char) (b : Nat) :
    pySlice text 0 b ++ text.drop b = text := by
  rw [pySlice_zero]; exact List.take_append_drop b text

/-- Taking an initial part of a slice is a shorter slice of the same text. -/
theorem take_pySlice (text : List Char) {a b i : Nat}
    (hi : a + i ≤ b) :
    (pySlice text a b).take i = pySlice text a (a + i) := by
  unfold pySlice
  rw [List.drop_take, List.drop_take, List.take_take]
  congr 1
  omega

/-- A slice of a slice, re-expressed as a slice of the underlying text: the
offset arithmetic `array_offset + rel_start .. array_offset + rel_end` is
exact as long as the inner span fits in the outer slice. -/
theorem pySlice_pySlice (text : List Char) {o1 o2 b : Nat} (a : Nat)
    (hb : b ≤ (pySlice text o1 o2).length) :
    pySlice (pySlice text o1 o2) a b = pySlice text (o1 + a) (o1 + b) := by
  have hb2 : b ≤ o2 - o1 := by
    rw [pySlice_len_le] at hb
    omega
  unfold pySlice
  have h1 : (text.take o2).drop o1 = (text.drop o1).take (o2 - o1) :=
    List.drop_take o2 o1 text
  rw [h1, List.take_take, inf_eq_left.mpr hb2]
  have h2 : (text.take (o1 + b)).drop (o1 + a)
      = ((text.take (o1 + b)).drop o1).drop a := by
    rw [List.drop_drop]
  rw [h2, List.drop_take (o1 + b) o1]
  have h3 : o1 + b - o1 = b := by omega
  rw [h3]

-- ---------------------------------------------------------------------------
-- Stable sort (model of Python's `sorted` / `list.sort` with a key)
-- ---------------------------------------------------------------------------

/-- Stable insert: `x` (which originally came *before* the elements of the
sorted list) is placed before the first element that is not strictly below it.
For a total preorder `le` this reproduces exactly the output of any stable
sort, in particular CPython's. -/
def insertStable (le : α → α → Bool) (x : α) : List α → List α
  | [] => [x]
  | y :: ys => if le y x && !le x y then y :: insertStable le x ys else x :: y :: ys

/-- Stable sort by the boolean total preorder `le`. -/
def sortStable (le : α → α → Bool) : List α → List α
  | [] => []
  | x :: xs => insertStable le x (sortStable le xs)

theorem insertStable_perm (le : α → α → Bool) (x : α) (l : List α) :
    List.Perm (insertStable le x l) (x :: l) := by
  induction l with
  | nil => rfl
  | cons y ys ih =>
    unfold insertStable
    by_cases h : (le y x && !le x y) = true
    · simp only [h, if_pos]
      exact (List.Perm.cons y ih).trans (List.Perm.swap x y ys)
    · simp only [h, if_neg]
      exact List.Perm.refl _

theorem sortStable_perm (le : α → α → Bool) (l : List α) :
    List.Perm (sortStable le l) l := by
  induction l with
  | nil => rfl
  | cons x xs ih =>
    exact (insertStable_perm le x (sortStable le xs)).trans (List.Perm.cons x ih)

theorem mem_sortStable (le : α → α → Bool) {x : α} {l : List α} :
    x ∈ sortStable le l ↔ x ∈ l :=
  (sortStable_perm le l).mem_iff

/-- Sortedness of the stable insert, for a total and transitive `le`. -/
theorem insertStable_pairwise (le : α → α → Bool)
    (htot : ∀ a b, le a b || le b a)
    (htrans : ∀ a b c, le a b = true → le b c = true → le a c = true)
    {x : α} {l : List α} (hl : l.Pairwise (fun a b => le a b = true)) :
    (insertStable le x l).Pairwise (fun a b => le a b = true) := by
  induction l with
  | nil => simp [insertStable]
  | cons y ys ih =>
    rcases hl with _ | ⟨hy, hys⟩
    unfold insertStable
    by_cases h : (le y x && !le x y) = true
    · simp only [h, if_pos]
      refine List.Pairwise.cons ?_ (ih hys)
      intro b hb
      have hb2 : b ∈ x :: ys := (insertStable_perm le x ys).mem_iff.mp hb
      rcases List.mem_cons.mp hb2 with rfl | hb3
      · exact ((Bool.and_eq_true _ _).mp h).1
      · exact hy b hb3
    · simp only [h, if_neg]
      have hxy : le x y = true := by
        rcases Bool.or_eq_true _ _ |>.mp (htot x y) with h' | h'
        · exact h'
        · by_cases hxy2 : le x y = true
          · exact hxy2
          · exfalso; apply h; simp [h', hxy2]
      refine List.Pairwise.cons ?_ (List.Pairwise.cons hy hys)
      intro b hb
      rcases List.mem_cons.mp hb with rfl | hb2
      · exact hxy
      · exact htrans x y b hxy (hy b hb2)

theorem sortStable_pairwise (le : α → α → Bool)
    (htot : ∀ a b, le a b || le b a)
    (htrans : ∀ a b c, le a b = true → le b c = true → le a c = true)
    (l : List α) :
    (sortStable le l).Pairwise (fun a b => le a b = true) := by
  induction l with
  | nil => simp [sortStable]
  | cons x xs ih =>
    exact insertStable_pairwise le htot htrans ih

-- ---------------------------------------------------------------------------
-- `_spans_overlap` (src/tools/detect_pii.py)
-- ---------------------------------------------------------------------------

/-- `_spans_overlap`: `a.start < b.end and b.start < a.end`. -/
def spans_overlap (a b : DetectedEntity) : Bool :=
  decide (a.start < b.stop) && decide (b.start < a.stop)

theorem spans_overlap_comm (a b : DetectedEntity) :
    spans_overlap a b = spans_overlap b a := by
  simp only [spans_overlap]
  by_cases h1 : a.start < b.stop <;> by_cases h2 : b.start < a.stop <;> simp [h1, h2]

-- ---------------------------------------------------------------------------
-- `_resolve_overlaps` (src/tools/redact.py)
-- ---------------------------------------------------------------------------

/-- `e.end - e.start` as a Python integer (Python's `-` on `int` never
truncates, so the width is an `Int`). -/
def widthI (e : DetectedEntity) : Int := (e.stop : Int) - (e.start : Int)

/-- The boolean total preorder corresponding to the sort key
`(e.start, -(e.end - e.start))` of `_resolve_overlaps`. -/
def leResolve (a b : DetectedEntity) : Bool :=
  decide (a.start < b.start ∨ (a.start = b.start ∧ widthI b ≤ widthI a))

theorem leResolve_total (a b : DetectedEntity) : leResolve a b || leResolve b a := by
  simp only [leResolve, Bool.or_eq_true, decide_eq_true_eq]
  omega

theorem leResolve_trans (a b c : DetectedEntity) :
    leResolve a b = true → leResolve b c = true → leResolve a c = true := by
  simp only [leResolve, decide_eq_true_eq]
  omega

/-- The scan loop of `_resolve_overlaps`: `prev` is `resolved[-1]`, the only
element the loop ever mutates; earlier elements of `resolved` are final. -/
def resolveGo (prev : DetectedEntity) : List DetectedEntity → List DetectedEntity
  | [] => [prev]
  | e :: rest =>
    if e.start < prev.stop then
      -- overlap: keep the better one
      if widthI prev < widthI e ∨ (widthI e = widthI prev ∧ prev.confidence < e.confidence)
      then resolveGo e rest
      else resolveGo prev rest
    else prev :: resolveGo e rest

/-- `_resolve_overlaps`: sort by `(start, -(end-start))`, then scan. -/
def resolve_overlaps (entities : List DetectedEntity) : List DetectedEntity :=
  match sortStable leResolve entities with
  | [] => []
  | first :: rest => resolveGo first rest

/-- Elements of `resolveGo prev rest` come from `prev :: rest`. -/
theorem resolveGo_mem {prev : DetectedEntity} {rest : List DetectedEntity} :
    ∀ x ∈ resolveGo prev rest, x = prev ∨ x ∈ rest := by
  induction rest generalizing prev with
  | nil => intro x hx; simp [resolveGo] at hx; exact Or.inl hx
  | cons e rest ih =>
    intro x hx
    unfold resolveGo at hx
    by_cases h1 : e.start < prev.stop
    · simp only [h1, if_pos] at hx
      by_cases h2 : widthI prev < widthI e ∨ (widthI e = widthI prev ∧ prev.confidence < e.confidence)
      · simp only [h2, if_pos] at hx
        rcases ih x hx with h | h
        · exact Or.inr (by simp [h])
        · exact Or.inr (by simp [h])
      · simp only [h2, if_neg] at hx
        rcases ih x hx with h | h
        · exact Or.inl h
        · exact Or.inr (by simp [h])
    · simp only [h1, if_neg] at hx
      rcases List.mem_cons.mp hx with rfl | hx2
      · exact Or.inl rfl
      · rcases ih x hx2 with h | h
        · exact Or.inr (by simp [h])
        · exact Or.inr (by simp [h])

/-- Core invariant of the `_resolve_overlaps` scan: on start-sorted input the
output is pairwise ordered (`a.end ≤ b.start` and `a.start ≤ b.start` for any
earlier `a` and later `b`), and all output starts dominate `prev.start`. -/
theorem resolveGo_pairwise (prev : DetectedEntity) (rest : List DetectedEntity)
    (hsort : rest.Pairwise (fun a b => a.start ≤ b.start))
    (hprev : ∀ x ∈ rest, prev.start ≤ x.start) :
    (resolveGo prev rest).Pairwise
      (fun a b => a.stop ≤ b.start ∧ a.start ≤ b.start) ∧
    (∀ x ∈ resolveGo prev rest, prev.start ≤ x.start) := by
  induction rest generalizing prev with
  | nil =>
    constructor
    · simp [resolveGo]
    · intro x hx; simp [resolveGo] at hx; simp [hx]
  | cons e rest ih =>
    rcases hsort with _ | ⟨he, hrest⟩
    have hpe : prev.start ≤ e.start := hprev e (by simp)
    unfold resolveGo
    by_cases h1 : e.start < prev.stop
    · simp only [h1, if_pos]
      by_cases h2 : widthI prev < widthI e ∨ (widthI e = widthI prev ∧ prev.confidence < e.confidence)
      · simp only [h2, if_pos]
        obtain ⟨hP, hmem⟩ := ih e hrest he
        exact ⟨hP, fun x hx => le_trans hpe (hmem x hx)⟩
      · simp only [h2, if_neg]
        exact ih prev hrest (fun x hx => hprev x (by simp [hx]))
    · simp only [h1, if_neg]
      push_neg at h1
      obtain ⟨hP, hmem⟩ := ih e hrest he
      refine ⟨List.Pairwise.cons ?_ hP, ?_⟩
      · intro y hy
        have hys : e.start ≤ y.start := hmem y hy
        exact ⟨le_trans h1 hys, le_trans hpe hys⟩
      · intro x hx
        rcases List.mem_cons.mp hx with rfl | hx2
        · exact le_refl _
        · exact le_trans hpe (hmem x hx2)

theorem resolve_overlaps_pairwise (entities : List DetectedEntity) :
    (resolve_overlaps entities).Pairwise
      (fun a b => a.stop ≤ b.start ∧ a.start ≤ b.start) := by
  unfold resolve_overlaps
  have hsorted := sortStable_pairwise leResolve leResolve_total leResolve_trans entities
  have hstart : (sortStable leResolve entities).Pairwise (fun a b => a.start ≤ b.start) := by
    refine hsorted.imp ?_
    intro a b hab
    simp only [leResolve, decide_eq_true_eq] at hab
    omega
  match hm : sortStable leResolve entities with
  | [] => simp
  | first :: rest =>
    rw [hm] at hstart
    rcases hstart with _ | ⟨hfirst, hrest⟩
    exact (resolveGo_pairwise first rest hrest hfirst).1

/-- C4: for every input entity list, the resolved sequence produced by
`_resolve_overlaps` (the pre-redaction overlap resolver of
`src/tools/redact.py`) is ordered by position left to right
(`a.end ≤ b.start` and `a.start ≤ b.start` for every earlier `a` and later
`b`) and strictly non-overlapping: for all `i ≠ j` the spans of
`resolved[i]` and `resolved[j]` do not intersect. -/
theorem resolve_overlaps_disjoint_ordered (entities : List DetectedEntity) :
    ((resolve_overlaps entities).Pairwise
      (fun a b => a.stop ≤ b.start ∧ a.start ≤ b.start)) ∧
    (∀ i j (hi : i < (resolve_overlaps entities).length)
       (hj : j < (resolve_overlaps entities).length), i ≠ j →
       spans_overlap ((resolve_overlaps entities).get ⟨i, hi⟩)
         ((resolve_overlaps entities).get ⟨j, hj⟩) = false) := by
  have hP := resolve_overlaps_pairwise entities
  refine ⟨hP, ?_⟩
  have hget := List.pairwise_iff_get.mp hP
  intro i j hi hj hne
  rcases Nat.lt_or_ge i j with hij | hij
  · have := hget ⟨i, hi⟩ ⟨j, hj⟩ hij
    simp only [spans_overlap, Bool.and_eq_false_iff, decide_eq_false_iff_not, not_lt]
    exact Or.inr this.1
  · have hji : j < i := Nat.lt_of_le_of_ne hij (Ne.symm hne)
    have := hget ⟨j, hj⟩ ⟨i, hi⟩ hji
    simp only [spans_overlap, Bool.and_eq_false_iff, decide_eq_false_iff_not, not_lt]
    exact Or.inl this.1

/-- C4 witness: a concrete run of the resolver on two overlapping and one
separate entity, with the theorem applied at indices 0 and 1. -/
theorem resolve_overlaps_disjoint_ordered_witness :
    spans_overlap
      ((resolve_overlaps
        [⟨0, 10, .PHONE, "555-123-45".data, mkRat 80 100, .regex, none, false⟩,
         ⟨5, 12, .PHONE, "3-45678".data, mkRat 75 100, .regex, none, false⟩,
         ⟨14, 20, .EMAIL, "a@b.co".data, mkRat 95 100, .regex, none, false⟩]).get ⟨0, by decide⟩)
      ((resolve_overlaps
        [⟨0, 10, .PHONE, "555-123-45".data, mkRat 80 100, .regex, none, false⟩,
         ⟨5, 12, .PHONE, "3-45678".data, mkRat 75 100, .regex, none, false⟩,
         ⟨14, 20, .EMAIL, "a@b.co".data, mkRat 95 100, .regex, none, false⟩]).get ⟨1, by decide⟩)
      = false :=
  (resolve_overlaps_disjoint_ordered
    [⟨0, 10, .PHONE, "555-123-45".data, mkRat 80 100, .regex, none, false⟩,
     ⟨5, 12, .PHONE, "3-45678".data, mkRat 75 100, .regex, none, false⟩,
     ⟨14, 20, .EMAIL, "a@b.co".data, mkRat 95 100, .regex, none, false⟩]).2
    0 1 (by decide) (by decide) (by decide)

-- ---------------------------------------------------------------------------
-- Decimal rendering (Python f-string `{count}`) and placeholder tokens
-- ---------------------------------------------------------------------------

/-- Decimal digit character for `d ≤ 9` (as rendered by Python). -/
def digitChar : Nat → Char
  | 0 => '0' | 1 => '1' | 2 => '2' | 3 => '3' | 4 => '4'
  | 5 => '5' | 6 => '6' | 7 => '7' | 8 => '8' | _ => '9'

/-- Fuel-based decimal rendering (structural, so the kernel can evaluate it). -/
def natDigitsF : Nat → Nat → List Char
  | 0, _ => []
  | f + 1, n =>
    if n < 10 then [digitChar n]
    else natDigitsF f (n / 10) ++ [digitChar (n % 10)]

/-- Decimal rendering of a natural number, as Python's `str`/f-string does. -/
def natDigits (n : Nat) : List Char := natDigitsF (n + 1) n

/-- Numeric value of a digit character. -/
def digitVal (c : Char) : Nat := c.toNat - 48

/-- Decode a decimal digit string (left fold). -/
def decodeDigits (l : List Char) : Nat := l.foldl (fun a c => 10 * a + digitVal c) 0

theorem digitVal_digitChar {d : Nat} (hd : d < 10) : digitVal (digitChar d) = d := by
  interval_cases d <;> rfl

theorem decodeDigits_append_one (l : List Char) (c : Char) :
    decodeDigits (l ++ [c]) = 10 * decodeDigits l + digitVal c := by
  simp [decodeDigits, List.foldl_append]

theorem decodeDigits_natDigitsF {f n : Nat} (h : n < f) :
    decodeDigits (natDigitsF f n) = n := by
  induction f generalizing n with
  | zero => omega
  | succ f ih =>
    unfold natDigitsF
    by_cases hn : n < 10
    · rw [if_pos hn]
      simp [decodeDigits, digitVal_digitChar hn]
    · rw [if_neg hn]
      rw [decodeDigits_append_one, ih (by omega), digitVal_digitChar (Nat.mod_lt _ (by omega))]
      omega

theorem natDigits_injective {m n : Nat} (h : natDigits m = natDigits n) : m = n := by
  have hm := decodeDigits_natDigitsF (Nat.lt_succ_self m)
  have hn := decodeDigits_natDigitsF (Nat.lt_succ_self n)
  unfold natDigits at h
  rw [← hm, ← hn, h]

theorem digitChar_isDigit {d : Nat} : (digitChar d).isDigit = true := by
  unfold digitChar
  split <;> decide

theorem natDigitsF_digits {f n : Nat} : ∀ c ∈ natDigitsF f n, c.isDigit = true := by
  induction f generalizing n with
  | zero => intro c hc; simp [natDigitsF] at hc
  | succ f ih =>
    intro c hc
    unfold natDigitsF at hc
    by_cases hn : n < 10
    · rw [if_pos hn] at hc
      rw [List.mem_singleton.mp hc]; exact digitChar_isDigit
    · rw [if_neg hn] at hc
      rcases List.mem_append.mp hc with hc | hc
      · exact ih c hc
      · rw [List.mem_singleton.mp hc]; exact digitChar_isDigit

theorem natDigits_digits {n : Nat} : ∀ c ∈ natDigits n, c.isDigit = true :=
  natDigitsF_digits

theorem natDigits_ne_nil (n : Nat) : natDigits n ≠ [] := by
  unfold natDigits natDigitsF
  by_cases hn : n < 10 <;> simp [hn]

/-- The placeholder token `[<TYPE>_<n>]` built by `redact`
(`f"[{entity.pii_type.value}_{count}]"`). -/
def placeholder (t : PIIType) (n : Nat) : List Char :=
  '[' :: (typeStr t ++ '_' :: natDigits n) ++ [']']

-- ---------------------------------------------------------------------------
-- Python dict (string keys, insertion-ordered) as an association list
-- ---------------------------------------------------------------------------

/-- Python `d[k] = v`: update in place if the key exists, else append.
(Python dicts preserve insertion order, which `deredact` relies on.) -/
def dictInsert (m : List (List Char × List Char)) (k v : List Char) :
    List (List Char × List Char) :=
  if m.any (fun kv => kv.1 == k) then
    m.map (fun kv => if kv.1 == k then (k, v) else kv)
  else m ++ [(k, v)]

/-- Python `d.get(k)` / `d[k]`. -/
def dictGet (m : List (List Char × List Char)) (k : List Char) :
    Option (List Char) :=
  (m.find? (fun kv => kv.1 == k)).map (fun kv => kv.2)

-- ---------------------------------------------------------------------------
-- Python `str.replace` (used by `deredact`)
-- ---------------------------------------------------------------------------

/-- Fuel-based scan of `str.replace(old, new)` for non-empty `old`:
replace each non-overlapping occurrence left to right, resuming the scan in
the original string after the match.  Fuel `s.length` always suffices. -/
def replaceAllF (old new : List Char) : Nat → List Char → List Char
  | 0, s => s
  | f + 1, s =>
    if old.isPrefixOf s then new ++ replaceAllF old new f (s.drop old.length)
    else
      match s with
      | [] => []
      | c :: rest => c :: replaceAllF old new f rest

/-- Python `s.replace(old, new)` (including the empty-`old` corner case, where
Python inserts `new` before every character and at the end). -/
def replaceAll (s old new : List Char) : List Char :=
  if old.isEmpty then new ++ s.foldr (fun c acc => c :: (new ++ acc)) []
  else replaceAllF old new s.length s

-- ---------------------------------------------------------------------------
-- `redact` and `deredact` (src/tools/redact.py)
-- ---------------------------------------------------------------------------

/-- `RedactionResult` dataclass from `src/tools/redact.py`. -/
structure RedactionResult where
  redacted_text : List Char
  mapping : List (List Char × List Char)
  entity_count : Nat
  deriving DecidableEq, Repr

/-- State of the placeholder-assignment loop of `redact`:
`type_counters` (a `dict` defaulting to 0), `mapping`, and the
`(start, end, placeholder)` triples. -/
structure RedactState where
  counters : PIIType → Nat
  mapping : List (List Char × List Char)
  placeholders : List (Nat × Nat × List Char)

/-- One iteration of the placeholder-assignment loop of `redact`. -/
def redactStep (st : RedactState) (e : DetectedEntity) : RedactState :=
  let count := st.counters e.pii_type + 1
  let ph := placeholder e.pii_type count
  { counters := fun t => if t = e.pii_type then count else st.counters t,
    mapping := dictInsert st.mapping ph e.value,
    placeholders := st.placeholders ++ [(e.start, e.stop, ph)] }

/-- The end-to-start splice loop of `redact`:
`for start, end, placeholder in reversed(placeholders):
   redacted = redacted[:start] + placeholder + redacted[end:]`. -/
def applySplices (text : List Char) (phs : List (Nat × Nat × List Char)) :
    List Char :=
  phs.reverse.foldl (fun acc sp => acc.take sp.1 ++ sp.2.2 ++ acc.drop sp.2.1) text

/-- `redact` from `src/tools/redact.py`. -/
def redact (text : List Char) (entities : List DetectedEntity) : RedactionResult :=
  if entities.isEmpty then ⟨text, [], 0⟩
  else
    let resolved := resolve_overlaps entities
    let st := resolved.foldl redactStep ⟨fun _ => 0, [], []⟩
    ⟨applySplices text st.placeholders, st.mapping, resolved.length⟩

/-- `deredact` from `src/tools/redact.py`: for every mapping item in insertion
order, replace all occurrences of the placeholder by the original value. -/
def deredact (text : List Char) (mapping : List (List Char × List Char)) :
    List Char :=
  mapping.foldl (fun acc kv => replaceAll acc kv.1 kv.2) text

-- ---------------------------------------------------------------------------
-- Shape facts about placeholder tokens
-- ---------------------------------------------------------------------------

theorem typeStr_inj : ∀ t1 t2 : PIIType, typeStr t1 = typeStr t2 → t1 = t2 := by
  decide

theorem typeStr_chars :
    ∀ t : PIIType,
      (typeStr t).all (fun c => !c.isDigit && !(c == '[') && !(c == ']')) = true := by
  decide

theorem typeStr_no_digit {t : PIIType} {c : Char} (hc : c ∈ typeStr t) :
    c.isDigit = false := by
  have h := List.all_eq_true.mp (typeStr_chars t) c hc
  simp only [Bool.and_eq_true, Bool.not_eq_true'] at h
  exact h.1.1

theorem typeStr_no_bracket {t : PIIType} {c : Char} (hc : c ∈ typeStr t) :
    c ≠ '[' ∧ c ≠ ']' := by
  have h := List.all_eq_true.mp (typeStr_chars t) c hc
  simp only [Bool.and_eq_true, Bool.not_eq_true'] at h
  constructor
  · intro hh; rw [hh] at h; simp at h
  · intro hh; rw [hh] at h; simp at h

/-- Splitting a digit-run followed by `'_'` with `takeWhile`/`dropWhile`. -/
theorem span_digit_sep (d r : List Char) (hd : ∀ c ∈ d, c.isDigit = true) :
    (d ++ '_' :: r).takeWhile Char.isDigit = d ∧
    (d ++ '_' :: r).dropWhile Char.isDigit = '_' :: r := by
  induction d with
  | nil =>
    constructor
    · simp [List.takeWhile_cons]
    · simp [List.dropWhile_cons]
  | cons c d ih =>
    have hc : c.isDigit = true := hd c (by simp)
    obtain ⟨ih1, ih2⟩ := ih (fun x hx => hd x (by simp [hx]))
    constructor
    · simp [List.takeWhile_cons, hc, ih1]
    · simp [List.dropWhile_cons, hc, ih2]

/-- Placeholder tokens are uniquely parsed: equal tokens come from the same
type and the same counter. -/
theorem placeholder_inj {t1 t2 : PIIType} {n1 n2 : Nat}
    (h : placeholder t1 n1 = placeholder t2 n2) : t1 = t2 ∧ n1 = n2 := by
  unfold placeholder at h
  injection h with _ h2
  have h3 : typeStr t1 ++ '_' :: natDigits n1 = typeStr t2 ++ '_' :: natDigits n2 :=
    List.append_cancel_right h2
  have hrev : (natDigits n1).reverse ++ '_' :: (typeStr t1).reverse
      = (natDigits n2).reverse ++ '_' :: (typeStr t2).reverse := by
    have := congrArg List.reverse h3
    simpa [List.reverse_append] using this
  obtain ⟨ht1, hd1⟩ := span_digit_sep (natDigits n1).reverse (typeStr t1).reverse
    (fun c hc => natDigits_digits c (List.mem_reverse.mp hc))
  obtain ⟨ht2, hd2⟩ := span_digit_sep (natDigits n2).reverse (typeStr t2).reverse
    (fun c hc => natDigits_digits c (List.mem_reverse.mp hc))
  have hD : (natDigits n1).reverse = (natDigits n2).reverse := by
    rw [← ht1, ← ht2, hrev]
  have hT : '_' :: (typeStr t1).reverse = '_' :: (typeStr t2).reverse := by
    rw [← hd1, ← hd2, hrev]
  injection hT with _ hT2
  exact ⟨typeStr_inj _ _ (List.reverse_injective hT2),
    natDigits_injective (List.reverse_injective hD)⟩

-- ---------------------------------------------------------------------------
-- Characterizing the placeholder-assignment loop of `redact`
-- ---------------------------------------------------------------------------

/-- `type_counters[t] = type_counters.get(t, 0) + 1` as a function update. -/
def bump (ctr : PIIType → Nat) (t0 : PIIType) : PIIType → Nat :=
  fun t => if t = t0 then ctr t0 + 1 else ctr t

/-- The records `((start, end, placeholder), value)` produced by the
assignment loop of `redact`, starting from counter state `ctr`. -/
def assignRecs (ctr : PIIType → Nat) : List DetectedEntity →
    List ((Nat × Nat × List Char) × List Char)
  | [] => []
  | e :: rest =>
    ((e.start, e.stop, placeholder e.pii_type (ctr e.pii_type + 1)), e.value) ::
      assignRecs (bump ctr e.pii_type) rest

theorem assignRecs_length (ctr : PIIType → Nat) (l : List DetectedEntity) :
    (assignRecs ctr l).length = l.length := by
  induction l generalizing ctr with
  | nil => rfl
  | cons e rest ih => simp [assignRecs, ih]

/-- The `redact` fold is described by `assignRecs`. -/
theorem redact_fold_spec (l : List DetectedEntity) :
    ∀ st : RedactState,
      (l.foldl redactStep st).placeholders
        = st.placeholders ++ (assignRecs st.counters l).map Prod.fst ∧
      (l.foldl redactStep st).mapping
        = (assignRecs st.counters l).foldl
            (fun m r => dictInsert m r.1.2.2 r.2) st.mapping := by
  induction l with
  | nil => intro st; simp [assignRecs]
  | cons e rest ih =>
    intro st
    obtain ⟨h1, h2⟩ := ih (redactStep st e)
    constructor
    · rw [List.foldl_cons, h1]
      show (st.placeholders ++ [(e.start, e.stop, placeholder e.pii_type (st.counters e.pii_type + 1))])
          ++ (assignRecs (bump st.counters e.pii_type) rest).map Prod.fst = _
      rw [List.append_assoc]
      rfl
    · rw [List.foldl_cons, h2]
      rfl

/-- Every key produced by `assignRecs ctr l` is a placeholder whose counter
strictly exceeds the starting counter of its type. -/
theorem assignRecs_key_shape (l : List DetectedEntity) :
    ∀ (ctr : PIIType → Nat) r, r ∈ assignRecs ctr l →
      ∃ t n, r.1.2.2 = placeholder t n ∧ ctr t < n := by
  induction l with
  | nil => intro ctr r hr; simp [assignRecs] at hr
  | cons e rest ih =>
    intro ctr r hr
    rcases List.mem_cons.mp hr with rfl | hr2
    · exact ⟨e.pii_type, ctr e.pii_type + 1, rfl, Nat.lt_succ_self _⟩
    · obtain ⟨t, n, hkey, hlt⟩ := ih (bump ctr e.pii_type) r hr2
      refine ⟨t, n, hkey, lt_of_le_of_lt ?_ hlt⟩
      unfold bump
      by_cases ht : t = e.pii_type <;> simp [ht]

/-- With fresh keys throughout, the `dictInsert` fold is a plain append. -/
theorem assignRecs_mapping (l : List DetectedEntity) :
    ∀ (ctr : PIIType → Nat) (m0 : List (List Char × List Char)),
      (∀ kv ∈ m0, ∀ t n, kv.1 = placeholder t n → n ≤ ctr t) →
      (assignRecs ctr l).foldl (fun m r => dictInsert m r.1.2.2 r.2) m0
        = m0 ++ (assignRecs ctr l).map (fun r => (r.1.2.2, r.2)) := by
  induction l with
  | nil => intro ctr m0 _; simp [assignRecs]
  | cons e rest ih =>
    intro ctr m0 hm0
    have hfresh : ∀ kv ∈ m0, (kv.1 == placeholder e.pii_type (ctr e.pii_type + 1)) = false := by
      intro kv hkv
      rcases h : kv.1 == placeholder e.pii_type (ctr e.pii_type + 1) with _ | _
      · rfl
      · exfalso
        have hk : kv.1 = placeholder e.pii_type (ctr e.pii_type + 1) := by
          exact eq_of_beq h
        have := hm0 kv hkv e.pii_type (ctr e.pii_type + 1) hk
        omega
    have hany : m0.any (fun kv => kv.1 == placeholder e.pii_type (ctr e.pii_type + 1)) = false := by
      rw [List.any_eq_false]
      intro kv hkv
      simp [hfresh kv hkv]
    simp only [assignRecs, List.foldl_cons, List.map_cons]
    rw [show dictInsert m0 (placeholder e.pii_type (ctr e.pii_type + 1)) e.value
        = m0 ++ [(placeholder e.pii_type (ctr e.pii_type + 1), e.value)] by
      unfold dictInsert; rw [hany]; simp]
    rw [ih (bump ctr e.pii_type) _ ?_]
    · simp
    · intro kv hkv t n hk
      rcases List.mem_append.mp hkv with hkv2 | hkv2
      · have := hm0 kv hkv2 t n hk
        refine le_trans this ?_
        unfold bump
        by_cases ht : t = e.pii_type <;> simp [ht]
      · have hkv3 : kv = (placeholder e.pii_type (ctr e.pii_type + 1), e.value) := by
          simpa using hkv2
        rw [hkv3] at hk
        obtain ⟨ht, hn⟩ := placeholder_inj hk
        subst ht
        subst hn
        simp [bump]

/-- The keys produced by `assignRecs` are pairwise distinct (per-type
counters only grow). -/
theorem assignRecs_keys_pairwise (l : List DetectedEntity) :
    ∀ ctr : PIIType → Nat,
      (assignRecs ctr l).Pairwise (fun r1 r2 => r1.1.2.2 ≠ r2.1.2.2) := by
  induction l with
  | nil => intro ctr; simp [assignRecs]
  | cons e rest ih =>
    intro ctr
    refine List.Pairwise.cons ?_ (ih (bump ctr e.pii_type))
    intro r hr heq
    obtain ⟨t, n, hkey, hlt⟩ := assignRecs_key_shape rest (bump ctr e.pii_type) r hr
    rw [hkey] at heq
    obtain ⟨ht, hn⟩ := placeholder_inj heq
    subst hn
    rw [← ht] at hlt
    have hb : bump ctr e.pii_type e.pii_type = ctr e.pii_type + 1 := by
      unfold bump; rw [if_pos rfl]
    rw [hb] at hlt
    omega

/-- Lookup in an insertion-ordered dict with pairwise-distinct keys. -/
theorem dictGet_of_mem {m : List (List Char × List Char)}
    (hdist : m.Pairwise (fun a b => a.1 ≠ b.1)) {k v : List Char}
    (hmem : (k, v) ∈ m) : dictGet m k = some v := by
  induction m with
  | nil => simp at hmem
  | cons kv m ih =>
    rcases hdist with _ | ⟨hkv, hm⟩
    rcases List.mem_cons.mp hmem with rfl | hmem2
    · simp [dictGet, List.find?]
    · have hne : kv.1 ≠ k := hkv (k, v) hmem2
      have hbeq : (kv.1 == k) = false := by
        rcases h : kv.1 == k with _ | _
        · rfl
        · exact absurd (eq_of_beq h) hne
      unfold dictGet at *
      rw [List.find?_cons, hbeq]
      exact ih hm hmem2

/-- Index-wise description of `assignRecs`: entity `i` is paired with the
placeholder whose counter is the starting counter of its type, plus the
number of earlier same-typed entities, plus one. -/
theorem assignRecs_idx (l : List DetectedEntity) :
    ∀ (ctr : PIIType → Nat) (i : Nat) (e : DetectedEntity), l[i]? = some e →
      (assignRecs ctr l)[i]?
        = some ((e.start, e.stop,
            placeholder e.pii_type
              (ctr e.pii_type
                + (l.take i).countP (fun x => x.pii_type == e.pii_type) + 1)),
          e.value) := by
  induction l with
  | nil => intro ctr i e h; simp at h
  | cons f rest ih =>
    intro ctr i e h
    match i with
    | 0 =>
      rw [List.getElem?_cons_zero] at h
      have he : e = f := by injection h with h2; exact h2.symm
      subst he
      simp [assignRecs]
    | i + 1 =>
      rw [List.getElem?_cons_succ] at h
      simp only [assignRecs, List.getElem?_cons_succ]
      rw [ih (bump ctr f.pii_type) i e h]
      have hcnt : bump ctr f.pii_type e.pii_type
            + (rest.take i).countP (fun x => x.pii_type == e.pii_type)
          = ctr e.pii_type
            + (((f :: rest).take (i + 1)).countP
                (fun x => x.pii_type == e.pii_type)) := by
        rw [List.take_succ_cons, List.countP_cons]
        unfold bump
        by_cases hte : e.pii_type = f.pii_type
        · have hbeq : (f.pii_type == e.pii_type) = true := by
            rw [hte]; exact beq_self_eq_true _
          rw [if_pos hte, hbeq, if_pos rfl, hte]
          omega
        · have hbeq : (f.pii_type == e.pii_type) = false := by
            rcases hb : f.pii_type == e.pii_type with _ | _
            · rfl
            · exact absurd (eq_of_beq hb).symm hte
          rw [if_neg hte, hbeq]
          simp
      rw [show bump ctr f.pii_type e.pii_type
            + (rest.take i).countP (fun x => x.pii_type == e.pii_type) + 1
          = ctr e.pii_type
            + (((f :: rest).take (i + 1)).countP
                (fun x => x.pii_type == e.pii_type)) + 1 by omega]

/-- `resolve_overlaps` of the empty list is empty. -/
theorem resolve_overlaps_nil : resolve_overlaps [] = [] := rfl

/-- The mapping built by `redact` on a non-empty entity list is the list of
`(placeholder, value)` pairs of `assignRecs` (all keys are fresh). -/
theorem redact_mapping_eq (text : List Char) (entities : List DetectedEntity)
    (hne : entities.isEmpty = false) :
    (redact text entities).mapping
      = (assignRecs (fun _ => 0) (resolve_overlaps entities)).map
          (fun r => (r.1.2.2, r.2)) := by
  unfold redact
  rw [hne]
  simp only [Bool.false_eq_true, if_false]
  rw [(redact_fold_spec (resolve_overlaps entities) ⟨fun _ => 0, [], []⟩).2]
  rw [assignRecs_mapping _ _ _ (by intro kv hkv; simp at hkv)]
  simp

/-- The placeholder triples built by `redact` on a non-empty entity list. -/
theorem redact_placeholders_eq (entities : List DetectedEntity) :
    ((resolve_overlaps entities).foldl redactStep ⟨fun _ => 0, [], []⟩).placeholders
      = (assignRecs (fun _ => 0) (resolve_overlaps entities)).map Prod.fst := by
  rw [(redact_fold_spec (resolve_overlaps entities) ⟨fun _ => 0, [], []⟩).1]
  simp

/-- Concrete example text of the "Placeholder numbering" property (spec §8). -/
def phText : List Char := "Email john@a.com or jane@b.com".data

/-- The two EMAIL entities detected in `phText`. -/
def phEnts : List DetectedEntity :=
  [⟨6, 16, .EMAIL, "john@a.com".data, mkRat 95 100, .regex, none, false⟩,
   ⟨20, 30, .EMAIL, "jane@b.com".data, mkRat 95 100, .regex, none, false⟩]

/-- C9: `redact` iterates the resolved entity sequence left to right with a
per-type counter starting at 1: the `i`-th resolved entity `e` receives
placeholder `[<TYPE>_<n>]`, where `n` is one plus the number of earlier
resolved entities of the same type; the mapping's `i`-th entry is that
placeholder paired with `e`'s original value, and looking the placeholder up
yields the value.  In particular, redacting
`"Email john@a.com or jane@b.com"` with its two EMAIL entities yields
`"Email [EMAIL_1] or [EMAIL_2]"` (left-to-right numbering) with
`mapping["[EMAIL_1]"] = "john@a.com"`. -/
theorem redact_placeholder_numbering :
    (∀ (text : List Char) (entities : List DetectedEntity) (i : Nat)
       (e : DetectedEntity),
      (resolve_overlaps entities)[i]? = some e →
      (redact text entities).mapping[i]?
          = some (placeholder e.pii_type
              (((resolve_overlaps entities).take i).countP
                (fun x => x.pii_type == e.pii_type) + 1), e.value) ∧
      dictGet (redact text entities).mapping
          (placeholder e.pii_type
            (((resolve_overlaps entities).take i).countP
              (fun x => x.pii_type == e.pii_type) + 1))
          = some e.value) ∧
    (redact phText phEnts).redacted_text = "Email [EMAIL_1] or [EMAIL_2]".data ∧
    dictGet (redact phText phEnts).mapping "[EMAIL_1]".data
      = some "john@a.com".data := by
  refine ⟨?_, by decide, by decide⟩
  intro text entities i e hi
  have hne : entities.isEmpty = false := by
    rcases entities with _ | ⟨f, rest⟩
    · rw [resolve_overlaps_nil] at hi; simp at hi
    · rfl
  have hmap := redact_mapping_eq text entities hne
  have hidx := assignRecs_idx (resolve_overlaps entities) (fun _ => 0) i e hi
  constructor
  · rw [hmap, List.getElem?_map, hidx]
    simp
  · have hdist : ((redact text entities).mapping).Pairwise (fun a b => a.1 ≠ b.1) := by
      rw [hmap, List.pairwise_map]
      exact assignRecs_keys_pairwise (resolve_overlaps entities) (fun _ => 0)
    refine dictGet_of_mem hdist ?_
    have hm : (placeholder e.pii_type
        (((resolve_overlaps entities).take i).countP
          (fun x => x.pii_type == e.pii_type) + 1), e.value)
        ∈ (redact text entities).mapping := by
      have h1 : (redact text entities).mapping[i]?
          = some (placeholder e.pii_type
              (((resolve_overlaps entities).take i).countP
                (fun x => x.pii_type == e.pii_type) + 1), e.value) := by
        rw [hmap, List.getElem?_map, hidx]
        simp
      exact List.getElem?_mem h1
    exact hm

/-- C9 witness: the theorem applied at index 1 of the concrete example. -/
theorem redact_placeholder_numbering_witness :
    dictGet (redact phText phEnts).mapping
        (placeholder PIIType.EMAIL
          (((resolve_overlaps phEnts).take 1).countP
            (fun x => x.pii_type == PIIType.EMAIL) + 1))
      = some "jane@b.com".data :=
  (redact_placeholder_numbering.1 phText phEnts 1
    ⟨20, 30, .EMAIL, "jane@b.com".data, mkRat 95 100, .regex, none, false⟩
    (by decide)).2

-- ---------------------------------------------------------------------------
-- Properties of `replaceAll` (Python `str.replace`)
-- ---------------------------------------------------------------------------

theorem replaceAllF_nil {old new : List Char} (hold : old ≠ []) (f : Nat) :
    replaceAllF old new f [] = [] := by
  match f with
  | 0 => rfl
  | f + 1 =>
    unfold replaceAllF
    match old, hold with
    | c :: old2, _ => rfl

/-- Fuel irrelevance: any fuel at least the string length gives the same
result (each step consumes at least one character). -/
theorem replaceAllF_fuel {old new : List Char} (hold : old ≠ []) :
    ∀ (f1 : Nat) (f2 : Nat) (s : List Char), s.length ≤ f1 → s.length ≤ f2 →
      replaceAllF old new f1 s = replaceAllF old new f2 s := by
  intro f1
  induction f1 with
  | zero =>
    intro f2 s h1 _
    have hs : s = [] := List.length_eq_zero.mp (Nat.le_zero.mp h1)
    subst hs
    rw [replaceAllF_nil hold, replaceAllF_nil hold]
  | succ f1 ih =>
    intro f2 s h1 h2
    match f2 with
    | 0 =>
      have hs : s = [] := List.length_eq_zero.mp (Nat.le_zero.mp h2)
      subst hs
      rw [replaceAllF_nil hold, replaceAllF_nil hold]
    | f2 + 1 =>
      unfold replaceAllF
      by_cases hpre : old.isPrefixOf s
      · rw [if_pos hpre, if_pos hpre]
        have hlen : old.length ≤ s.length :=
          (List.isPrefixOf_iff_prefix.mp hpre).length_le
        have hone : 1 ≤ old.length := by
          match old, hold with
          | c :: old2, _ => simp
        congr 1
        exact ih f2 (s.drop old.length) (by simp; omega) (by simp; omega)
      · rw [if_neg hpre, if_neg hpre]
        cases s with
        | nil => rfl
        | cons c rest =>
          show c :: replaceAllF old new f1 rest = c :: replaceAllF old new f2 rest
          congr 1
          exact ih f2 rest (by simp at h1; omega) (by simp at h2; omega)

theorem replaceAll_nil_left {old new : List Char} (hold : old ≠ []) :
    replaceAll [] old new = [] := by
  unfold replaceAll
  rw [if_neg (by simp [List.isEmpty_iff, hold])]
  exact replaceAllF_nil hold 0

/-- Unfolding `replaceAll` at a match: replace and resume after the match. -/
theorem replaceAll_eq_of_isPrefix {s old new : List Char} (hold : old ≠ [])
    (h : old.isPrefixOf s = true) :
    replaceAll s old new = new ++ replaceAll (s.drop old.length) old new := by
  have hlen : old.length ≤ s.length := (List.isPrefixOf_iff_prefix.mp h).length_le
  have hone : 1 ≤ old.length := by
    match old, hold with
    | c :: old2, _ => simp
  have hs : s.length = (s.length - 1) + 1 := by omega
  unfold replaceAll
  rw [if_neg (by simp [List.isEmpty_iff, hold]), if_neg (by simp [List.isEmpty_iff, hold])]
  rw [hs]
  conv_lhs => unfold replaceAllF
  rw [if_pos h]
  congr 1
  exact replaceAllF_fuel hold (s.length - 1) (s.drop old.length).length
    (s.drop old.length) (by rw [List.length_drop]; omega) (le_refl _)

/-- Unfolding `replaceAll` at a non-match: keep the head character. -/
theorem replaceAll_eq_cons {c : Char} {rest old new : List Char} (hold : old ≠ [])
    (h : old.isPrefixOf (c :: rest) = false) :
    replaceAll (c :: rest) old new = c :: replaceAll rest old new := by
  unfold replaceAll
  rw [if_neg (by simp [List.isEmpty_iff, hold]), if_neg (by simp [List.isEmpty_iff, hold])]
  show replaceAllF old new (rest.length + 1) (c :: rest) = _
  conv_lhs => unfold replaceAllF
  rw [if_neg (by simp [h])]

/-- `str.replace` is the identity when the pattern does not occur at all. -/
theorem replaceAll_of_no_occurrence {s old new : List Char} (hold : old ≠ [])
    (h : ¬ old <:+: s) : replaceAll s old new = s := by
  induction s with
  | nil => exact replaceAll_nil_left hold
  | cons c rest ih =>
    have hpre : old.isPrefixOf (c :: rest) = false := by
      rcases hb : old.isPrefixOf (c :: rest) with _ | _
      · rfl
      · exact absurd (List.isPrefixOf_iff_prefix.mp hb).isInfix h
    rw [replaceAll_eq_cons hold hpre]
    rw [ih (fun hocc => h (hocc.trans (List.suffix_cons c rest).isInfix))]

/-- The central rewriting step: if `old` occurs at the seam of
`A ++ old ++ B` and nowhere earlier, `replace` rewrites exactly that
occurrence and continues in `B`. -/
theorem replaceAll_structured {A old B new : List Char} (hold : old ≠ [])
    (hA : ∀ i, i < A.length → ¬ old <+: ((A ++ old ++ B).drop i)) :
    replaceAll (A ++ old ++ B) old new = A ++ (new ++ replaceAll B old new) := by
  induction A with
  | nil =>
    simp only [List.nil_append]
    have hpre : old.isPrefixOf (old ++ B) = true :=
      List.isPrefixOf_iff_prefix.mpr (List.prefix_append old B)
    rw [replaceAll_eq_of_isPrefix hold hpre, List.drop_left]
  | cons c A2 ih =>
    have h0 := hA 0 (by simp)
    simp only [List.drop_zero] at h0
    have hpre : old.isPrefixOf ((c :: A2) ++ old ++ B) = false := by
      rcases hb : old.isPrefixOf ((c :: A2) ++ old ++ B) with _ | _
      · rfl
      · exact absurd (List.isPrefixOf_iff_prefix.mp hb) h0
    have hAB : (c :: A2) ++ old ++ B = c :: (A2 ++ old ++ B) := by simp
    rw [hAB] at hpre
    rw [hAB, replaceAll_eq_cons hold hpre]
    rw [ih ?_]
    · simp
    · intro i hi
      have := hA (i + 1) (by simp; omega)
      simpa using this

/-- `l₁ <:+: l₂` phrased through an occurrence position. -/
theorem infix_iff_exists_drop {p X : List Char} :
    p <:+: X ↔ ∃ i, p <+: X.drop i := by
  constructor
  · rintro ⟨s, t, rfl⟩
    refine ⟨s.length, ?_⟩
    rw [List.append_assoc, List.drop_left]
    exact ⟨t, rfl⟩
  · rintro ⟨i, t, ht⟩
    refine ⟨X.take i, t, ?_⟩
    rw [List.append_assoc, ht, List.take_append_drop]

/-- A prefix that fits inside the left part of an append is a prefix of it. -/
theorem prefix_of_append_of_length_le {p X Y : List Char}
    (h : p <+: X ++ Y) (hl : p.length ≤ X.length) : p <+: X := by
  have h1 : p = (X ++ Y).take p.length := List.prefix_iff_eq_take.mp h
  rw [List.take_append_eq_append_take, Nat.sub_eq_zero_of_le hl, List.take_zero,
    List.append_nil] at h1
  rw [h1]
  exact List.take_prefix _ _

-- ---------------------------------------------------------------------------
-- Bracket tokens: the shape of redaction placeholders
-- ---------------------------------------------------------------------------

/-- Shape of a redaction placeholder: an opening bracket, a bracket-free
body, and a closing bracket.  The body of `[<TYPE>_<n>]` (uppercase letters,
underscores and digits) contains no bracket. -/
def BracketTok (p : List Char) : Prop :=
  ∃ body, p = '[' :: body ++ [']'] ∧ '[' ∉ body ∧ ']' ∉ body

theorem bracketTok_ne_nil {p : List Char} (h : BracketTok p) : p ≠ [] := by
  obtain ⟨b, rfl, _, _⟩ := h
  simp

theorem bracketTok_length_pos {p : List Char} (h : BracketTok p) : 0 < p.length := by
  obtain ⟨b, rfl, _, _⟩ := h
  simp

theorem bracketTok_head {p : List Char} (h : BracketTok p) : p[0]? = some '[' := by
  obtain ⟨b, rfl, _, _⟩ := h
  simp

/-- A bracket token contains `'['` only at position 0. -/
theorem bracketTok_bracket_at_zero {p : List Char} (hp : BracketTok p) {j : Nat}
    (h : p[j]? = some '[') : j = 0 := by
  obtain ⟨b, rfl, hbl, _⟩ := hp
  match j with
  | 0 => rfl
  | j + 1 =>
    exfalso
    rw [List.cons_append, List.getElem?_cons_succ] at h
    have hmem : '[' ∈ b ++ [']'] := List.getElem?_mem h
    rcases List.mem_append.mp hmem with hm | hm
    · exact hbl hm
    · simp at hm

/-- A bracket token is never a proper prefix of another bracket token
followed by arbitrary text: if it is a prefix at all, the tokens are equal. -/
theorem bracketTok_prefix_eq {p1 p2 rest : List Char}
    (h1 : BracketTok p1) (h2 : BracketTok p2) (hp : p1 <+: p2 ++ rest) :
    p1 = p2 := by
  obtain ⟨b1, rfl, hb1l, hb1r⟩ := h1
  obtain ⟨b2, rfl, hb2l, hb2r⟩ := h2
  obtain ⟨t, ht⟩ := hp
  -- ht : (('[' :: b1) ++ [']']) ++ t = (('[' :: b2) ++ [']']) ++ rest
  have ht2 : (b1 ++ [']']) ++ t = (b2 ++ [']']) ++ rest := by
    simp only [List.cons_append, List.append_assoc] at ht
    injection ht with _ h
    simpa [List.append_assoc] using h
  have hlen : b1.length = b2.length := by
    by_contra hne
    rcases Nat.lt_or_ge b1.length b2.length with hlt | hge
    · -- index b1.length of both sides: ']' on the left, an element of b2 on the right
      have hL : ((b1 ++ [']']) ++ t)[b1.length]? = some ']' := by
        rw [List.getElem?_append_left (by simp)]
        rw [List.getElem?_append_right (by simp)]
        simp
      have hR : ((b2 ++ [']']) ++ rest)[b1.length]? = b2[b1.length]? := by
        rw [List.getElem?_append_left (by simp; omega)]
        rw [List.getElem?_append_left hlt]
      rw [ht2, hR] at hL
      exact hb2r (List.getElem?_mem hL)
    · have hlt : b2.length < b1.length := by omega
      have hL : ((b1 ++ [']']) ++ t)[b2.length]? = b1[b2.length]? := by
        rw [List.getElem?_append_left (by simp; omega)]
        rw [List.getElem?_append_left hlt]
      have hR : ((b2 ++ [']']) ++ rest)[b2.length]? = some ']' := by
        rw [List.getElem?_append_left (by simp)]
        rw [List.getElem?_append_right (by simp)]
        simp
      rw [ht2, hR] at hL
      exact hb1r (List.getElem?_mem hL.symm)
  have hb : b1 ++ [']'] = b2 ++ [']'] := by
    have := List.append_inj ht2 (by simp [hlen])
    exact this.1
  have hbb : b1 = b2 := List.append_cancel_right hb
  rw [hbb]

/-- Redaction placeholders are bracket tokens. -/
theorem placeholder_bracketTok (t : PIIType) (n : Nat) :
    BracketTok (placeholder t n) := by
  refine ⟨typeStr t ++ '_' :: natDigits n, rfl, ?_, ?_⟩
  · intro hmem
    rcases List.mem_append.mp hmem with hm | hm
    · exact absurd rfl (typeStr_no_bracket hm).1
    · rcases List.mem_cons.mp hm with hm2 | hm2
      · exact absurd hm2.symm (by decide)
      · have := natDigits_digits _ hm2
        simp at this
  · intro hmem
    rcases List.mem_append.mp hmem with hm | hm
    · exact absurd rfl (typeStr_no_bracket hm).2
    · rcases List.mem_cons.mp hm with hm2 | hm2
      · exact absurd hm2.symm (by decide)
      · have := natDigits_digits _ hm2
        simp at this

-- ---------------------------------------------------------------------------
-- Segment view of the redacted text
-- ---------------------------------------------------------------------------

/-- The redacted text as alternating slices of the original text and
placeholders, for the resolved spans `(start, end, placeholder)` from
position `pos` on. -/
def segs (text : List Char) (pos : Nat) : List (Nat × Nat × List Char) → List Char
  | [] => text.drop pos
  | (s, e, ph) :: rest => pySlice text pos s ++ ph ++ segs text e rest

/-- Well-formed, position-ordered spans within a text of length `len`,
starting at `pos`. -/
def SpansOK (len : Nat) : Nat → List (Nat × Nat × List Char) → Prop
  | pos, [] => pos ≤ len
  | pos, (s, e, _) :: rest => pos ≤ s ∧ s ≤ e ∧ SpansOK len e rest

theorem SpansOK_pos_le {len : Nat} :
    ∀ {phs : List (Nat × Nat × List Char)} {pos : Nat}, SpansOK len pos phs → pos ≤ len := by
  intro phs
  induction phs with
  | nil => intro pos h; exact h
  | cons sp rest ih =>
    intro pos h
    obtain ⟨h1, h2, h3⟩ := h
    exact le_trans h1 (le_trans h2 (ih h3))

/-- `applySplices` written as a `foldr`. -/
theorem applySplices_foldr (text : List Char) (phs : List (Nat × Nat × List Char)) :
    applySplices text phs
      = phs.foldr (fun sp acc => acc.take sp.1 ++ sp.2.2 ++ acc.drop sp.2.1) text := by
  unfold applySplices
  rw [List.foldl_reverse]

/-- The end-to-start splice loop of `redact` produces the segment view:
earlier offsets stay valid because later (right-hand) spans are spliced
first. -/
theorem applySplices_eq_segs (text : List Char) :
    ∀ (phs : List (Nat × Nat × List Char)) (pos : Nat),
      SpansOK text.length pos phs →
      applySplices text phs = text.take pos ++ segs text pos phs := by
  intro phs
  induction phs with
  | nil =>
    intro pos _
    rw [applySplices_foldr]
    simp [segs]
  | cons sp rest ih =>
    intro pos hok
    match sp, hok with
    | (s, e, ph), ⟨h1, h2, h3⟩ =>
      have he_len : e ≤ text.length := SpansOK_pos_le h3
      rw [applySplices_foldr] at *
      simp only [List.foldr_cons]
      have ihe := ih e h3
      rw [ihe]
      have htake : (text.take e ++ segs text e rest).take s = text.take s := by
        rw [List.take_append_eq_append_take]
        have hlen : (text.take e).length = e := by
          rw [List.length_take]; omega
        rw [List.take_take, Nat.min_eq_left h2, hlen,
          Nat.sub_eq_zero_of_le (le_trans h2 (le_refl e)), List.take_zero,
          List.append_nil]
      have hdrop : (text.take e ++ segs text e rest).drop e = segs text e rest := by
        refine List.drop_left' ?_
        rw [List.length_take]; omega
      rw [htake, hdrop]
      show text.take s ++ ph ++ segs text e rest
        = text.take pos ++ (pySlice text pos s ++ ph ++ segs text e rest)
      rw [← List.append_assoc, ← List.append_assoc, take_append_pySlice text h1]

-- ---------------------------------------------------------------------------
-- No stray occurrences of placeholders
-- ---------------------------------------------------------------------------

/-- A bracket token that does not occur in `text` cannot occur strictly
before the seam of `A ++ p ++ B` when `A` is a piece of `text`. -/
theorem no_occ_before {text A B p : List Char} (hp : BracketTok p)
    (hA : A <:+: text) (hnt : ¬ p <:+: text) :
    ∀ i, i < A.length → ¬ p <+: ((A ++ p ++ B).drop i) := by
  intro i hi hpre
  by_cases hcase : i + p.length ≤ A.length
  · -- the occurrence would fit inside `A`, hence inside `text`
    have hdrop : (A ++ p ++ B).drop i = A.drop i ++ (p ++ B) := by
      rw [List.append_assoc, List.drop_append_eq_append_drop,
        Nat.sub_eq_zero_of_le (le_of_lt hi), List.drop_zero]
    rw [hdrop] at hpre
    have hfit : p <+: A.drop i :=
      prefix_of_append_of_length_le hpre (by rw [List.length_drop]; omega)
    exact hnt (hfit.isInfix.trans ((List.drop_suffix i A).isInfix.trans hA))
  · -- the occurrence crosses the seam: `p` would contain `'['` after position 0
    push_neg at hcase
    have hjp : A.length - i < p.length := by omega
    have hj0 : 0 < A.length - i := by omega
    obtain ⟨t, ht⟩ := hpre
    have hchar : p[A.length - i]? = some '[' := by
      have h1 : ((A ++ p ++ B).drop i)[A.length - i]? = p[A.length - i]? := by
        rw [← ht, List.getElem?_append_left hjp]
      have h2 : ((A ++ p ++ B).drop i)[A.length - i]? = some '[' := by
        rw [List.getElem?_drop]
        have hAi : i + (A.length - i) = A.length := by omega
        rw [hAi, List.append_assoc, List.getElem?_append_right (le_refl _),
          Nat.sub_self]
        rw [List.getElem?_append_left (bracketTok_length_pos hp)]
        exact bracketTok_head hp
      rw [← h1, h2]
    have := bracketTok_bracket_at_zero hp hchar
    omega

/-- A bracket token distinct from all placeholders of a segment view, and
absent from the text, does not occur in the segment view at all. -/
theorem not_infix_segs {p : List Char} (hp : BracketTok p) {text : List Char}
    (hnt : ¬ p <:+: text) :
    ∀ (phs : List (Nat × Nat × List Char)) (pos : Nat),
      SpansOK text.length pos phs →
      (∀ sp ∈ phs, BracketTok sp.2.2) →
      (∀ sp ∈ phs, sp.2.2 ≠ p) →
      ¬ p <:+: segs text pos phs := by
  intro phs
  induction phs with
  | nil =>
    intro pos _ _ _ hocc
    exact hnt (hocc.trans (List.drop_suffix pos text).isInfix)
  | cons sp rest ih =>
    intro pos hok hbt hne hocc
    match sp, hok with
    | (s, e, ph), ⟨h1, h2, h3⟩ =>
      have hbtph : BracketTok ph := hbt (s, e, ph) (by simp)
      have hneph : ph ≠ p := hne (s, e, ph) (by simp)
      obtain ⟨i, hpre⟩ := infix_iff_exists_drop.mp hocc
      set mid := pySlice text pos s with hmid
      have hX : segs text pos ((s, e, ph) :: rest) = mid ++ ph ++ segs text e rest := rfl
      rw [hX] at hpre
      by_cases hc1 : i + p.length ≤ mid.length
      · -- inside the text slice
        have hdrop : (mid ++ ph ++ segs text e rest).drop i
            = mid.drop i ++ (ph ++ segs text e rest) := by
          rw [List.append_assoc, List.drop_append_eq_append_drop,
            Nat.sub_eq_zero_of_le (by omega), List.drop_zero]
        rw [hdrop] at hpre
        have hfit : p <+: mid.drop i :=
          prefix_of_append_of_length_le hpre (by rw [List.length_drop]; omega)
        exact hnt (hfit.isInfix.trans
          ((List.drop_suffix i mid).isInfix.trans (pySlice_substring text pos s)))
      · by_cases hc2 : i < mid.length
        · -- crossing from the slice into `ph`: `p` would have an interior '['
          push_neg at hc1
          have hjp : mid.length - i < p.length := by omega
          have hj0 : 0 < mid.length - i := by omega
          obtain ⟨t, ht⟩ := hpre
          have hchar : p[mid.length - i]? = some '[' := by
            have hh1 : ((mid ++ ph ++ segs text e rest).drop i)[mid.length - i]?
                = p[mid.length - i]? := by
              rw [← ht, List.getElem?_append_left hjp]
            have hh2 : ((mid ++ ph ++ segs text e rest).drop i)[mid.length - i]?
                = some '[' := by
              rw [List.getElem?_drop]
              have hmi : i + (mid.length - i) = mid.length := by omega
              rw [hmi, List.append_assoc, List.getElem?_append_right (le_refl _),
                Nat.sub_self]
              rw [List.getElem?_append_left (bracketTok_length_pos hbtph)]
              exact bracketTok_head hbtph
            rw [← hh1, hh2]
          have := bracketTok_bracket_at_zero hp hchar
          omega
        · push_neg at hc2
          by_cases hc3 : i = mid.length
          · -- exactly at `ph`: prefix of a different bracket token
            subst hc3
            have hdrop : (mid ++ ph ++ segs text e rest).drop mid.length
                = ph ++ segs text e rest := by
              rw [List.append_assoc]
              exact List.drop_left mid _
            rw [hdrop] at hpre
            exact hneph (bracketTok_prefix_eq hp hbtph hpre).symm
          · by_cases hc4 : i < mid.length + ph.length
            · -- starting inside `ph`: `p`'s head '[' would be interior to `ph`
              have hj : 0 < i - mid.length := by omega
              have hjlt : i - mid.length < ph.length := by omega
              obtain ⟨t, ht⟩ := hpre
              have hchar : ph[i - mid.length]? = some '[' := by
                have hh1 : ((mid ++ ph ++ segs text e rest).drop i)[0]? = p[0]? := by
                  rw [← ht, List.getElem?_append_left (bracketTok_length_pos hp)]
                have hh2 : ((mid ++ ph ++ segs text e rest).drop i)[0]?
                    = ph[i - mid.length]? := by
                  rw [List.getElem?_drop, Nat.add_zero, List.append_assoc,
                    List.getElem?_append_right (by omega)]
                  rw [List.getElem?_append_left hjlt]
                rw [hh2] at hh1
                rw [hh1, bracketTok_head hp]
              have := bracketTok_bracket_at_zero hbtph hchar
              omega
            · -- starting after `ph`: an occurrence inside the remaining segments
              push_neg at hc4
              have hdrop : (mid ++ ph ++ segs text e rest).drop i
                  = (segs text e rest).drop (i - mid.length - ph.length) := by
                rw [List.append_assoc, List.drop_append_eq_append_drop,
                  List.drop_append_eq_append_drop]
                rw [List.drop_eq_nil_of_le (show mid.length ≤ i by omega),
                  List.drop_eq_nil_of_le (show ph.length ≤ i - mid.length by omega)]
                simp [Nat.sub_sub]
              rw [hdrop] at hpre
              have hocc2 : p <:+: segs text e rest :=
                infix_iff_exists_drop.mpr ⟨i - mid.length - ph.length, hpre⟩
              exact ih e h3 (fun x hx => hbt x (by simp [hx]))
                (fun x hx => hne x (by simp [hx])) hocc2

-- ---------------------------------------------------------------------------
-- The master round-trip lemma
-- ---------------------------------------------------------------------------

/-- Folding `str.replace` over the `(placeholder, value)` records (in
insertion order) over the segment view restores the original text, provided
the spans are ordered and in bounds, the values are the recorded slices, the
placeholders are pairwise-distinct bracket tokens, and no placeholder occurs
in the original text. -/
theorem deredact_restores (text : List Char) :
    ∀ (recs : List ((Nat × Nat × List Char) × List Char)) (pos : Nat),
      SpansOK text.length pos (recs.map Prod.fst) →
      (∀ r ∈ recs, r.2 = pySlice text r.1.1 r.1.2.1) →
      (∀ r ∈ recs, BracketTok r.1.2.2) →
      ((recs.map (fun r => r.1.2.2)).Pairwise (fun a b => a ≠ b)) →
      (∀ r ∈ recs, ¬ r.1.2.2 <:+: text) →
      (recs.map (fun r => (r.1.2.2, r.2))).foldl
          (fun acc kv => replaceAll acc kv.1 kv.2)
          (text.take pos ++ segs text pos (recs.map Prod.fst))
        = text := by
  intro recs
  induction recs with
  | nil =>
    intro pos _ _ _ _ _
    simp [segs]
  | cons r rest ih =>
    intro pos hok hval hbt hdist hocc
    obtain ⟨⟨s, e, ph⟩, v⟩ := r
    simp only [List.map_cons, List.foldl_cons] at *
    obtain ⟨h1, h2, h3⟩ := hok
    have hbtph : BracketTok ph := hbt ((s, e, ph), v) (by simp)
    have hoccph : ¬ ph <:+: text := hocc ((s, e, ph), v) (by simp)
    have hvph : v = pySlice text s e := hval ((s, e, ph), v) (by simp)
    rcases hdist with _ | ⟨hhead, htail⟩
    have hS : text.take pos ++ segs text pos ((s, e, ph) :: rest.map Prod.fst)
        = text.take s ++ ph ++ segs text e (rest.map Prod.fst) := by
      show text.take pos
          ++ (pySlice text pos s ++ ph ++ segs text e (rest.map Prod.fst)) = _
      rw [← List.append_assoc, ← List.append_assoc, take_append_pySlice text h1]
    rw [hS]
    have hnoB : ¬ ph <:+: segs text e (rest.map Prod.fst) := by
      refine not_infix_segs hbtph hoccph (rest.map Prod.fst) e h3 ?_ ?_
      · intro sp hsp
        obtain ⟨r2, hr2, rfl⟩ := List.mem_map.mp hsp
        exact hbt r2 (by simp [hr2])
      · intro sp hsp
        obtain ⟨r2, hr2, rfl⟩ := List.mem_map.mp hsp
        intro heq
        exact hhead (r2.1.2.2) (List.mem_map.mpr ⟨r2, hr2, rfl⟩) heq.symm
    have hstep : replaceAll
        (text.take s ++ ph ++ segs text e (rest.map Prod.fst)) ph v
        = text.take s ++ (v ++ segs text e (rest.map Prod.fst)) := by
      rw [replaceAll_structured (bracketTok_ne_nil hbtph)
        (no_occ_before hbtph (text.take_prefix s).isInfix hoccph)]
      rw [replaceAll_of_no_occurrence (bracketTok_ne_nil hbtph) hnoB]
    rw [hstep]
    have hSe : text.take s ++ (v ++ segs text e (rest.map Prod.fst))
        = text.take e ++ segs text e (rest.map Prod.fst) := by
      rw [← List.append_assoc, hvph, take_append_pySlice text h2]
    rw [hSe]
    exact ih e h3
      (fun r2 hr2 => hval r2 (by simp [hr2]))
      (fun r2 hr2 => hbt r2 (by simp [hr2]))
      htail
      (fun r2 hr2 => hocc r2 (by simp [hr2]))

-- ---------------------------------------------------------------------------
-- C1: round-trip reconstruction
-- ---------------------------------------------------------------------------

/-- The data-model invariant (spec §3) that every entity list returned by
`detect` satisfies: the recorded `value` equals `text[start:end]` and the
span lies within the text.  The full `detect` runs external engines (the
Python `re` module and the Presidio/spaCy recognizer), so "a list detected
from this text" is formalized as a list satisfying this invariant. -/
def DetectedList (text : List Char) (E : List DetectedEntity) : Prop :=
  ∀ e ∈ E, e.value = pySlice text e.start e.stop
    ∧ e.start ≤ e.stop ∧ e.stop ≤ text.length

instance (text : List Char) (E : List DetectedEntity) :
    Decidable (DetectedList text E) :=
  List.decidableBAll _ E

/-- The resolver only keeps input entities. -/
theorem resolve_overlaps_subset (E : List DetectedEntity) :
    ∀ x ∈ resolve_overlaps E, x ∈ E := by
  intro x hx
  unfold resolve_overlaps at hx
  match hm : sortStable leResolve E with
  | [] => rw [hm] at hx; simp at hx
  | first :: rest =>
    rw [hm] at hx
    have := resolveGo_mem x hx
    have hmem : x ∈ sortStable leResolve E := by
      rw [hm]
      rcases this with rfl | h
      · simp
      · simp [h]
    exact (mem_sortStable leResolve).mp hmem

/-- Well-formed entity spans, position-ordered from `pos`. -/
def EntSpansOK (len : Nat) : Nat → List DetectedEntity → Prop
  | pos, [] => pos ≤ len
  | pos, e :: rest => pos ≤ e.start ∧ e.start ≤ e.stop ∧ EntSpansOK len e.stop rest

theorem entSpansOK_of_pairwise {len : Nat} :
    ∀ (l : List DetectedEntity) (pos : Nat),
      l.Pairwise (fun a b => a.stop ≤ b.start ∧ a.start ≤ b.start) →
      (∀ x ∈ l, x.start ≤ x.stop ∧ x.stop ≤ len) →
      (∀ x ∈ l, pos ≤ x.start) →
      pos ≤ len →
      EntSpansOK len pos l := by
  intro l
  induction l with
  | nil => intro pos _ _ _ h; exact h
  | cons e rest ih =>
    intro pos hpair hwf hpos hlen
    rcases hpair with _ | ⟨hhead, htail⟩
    refine ⟨hpos e (by simp), (hwf e (by simp)).1, ?_⟩
    exact ih e.stop htail (fun x hx => hwf x (by simp [hx]))
      (fun x hx => (hhead x hx).1) (hwf e (by simp)).2

/-- `assignRecs` keeps the spans of its input entities. -/
theorem assignRecs_spansOK {len : Nat} :
    ∀ (l : List DetectedEntity) (ctr : PIIType → Nat) (pos : Nat),
      EntSpansOK len pos l →
      SpansOK len pos ((assignRecs ctr l).map Prod.fst) := by
  intro l
  induction l with
  | nil => intro ctr pos h; exact h
  | cons e rest ih =>
    intro ctr pos h
    obtain ⟨h1, h2, h3⟩ := h
    exact ⟨h1, h2, ih (bump ctr e.pii_type) e.stop h3⟩

/-- Each record of `assignRecs ctr l` carries the fields of an input entity
and a placeholder of that entity's type. -/
theorem assignRecs_fields :
    ∀ (l : List DetectedEntity) (ctr : PIIType → Nat) r, r ∈ assignRecs ctr l →
      ∃ e ∈ l, r.1.1 = e.start ∧ r.1.2.1 = e.stop ∧ r.2 = e.value
        ∧ ∃ n, r.1.2.2 = placeholder e.pii_type n := by
  intro l
  induction l with
  | nil => intro ctr r hr; simp [assignRecs] at hr
  | cons e rest ih =>
    intro ctr r hr
    rcases List.mem_cons.mp hr with rfl | hr2
    · exact ⟨e, by simp, rfl, rfl, rfl, ctr e.pii_type + 1, rfl⟩
    · obtain ⟨e2, he2, hf⟩ := ih (bump ctr e.pii_type) r hr2
      exact ⟨e2, by simp [he2], hf⟩

/-- The redacted text of a non-empty redaction, via `assignRecs`. -/
theorem redact_redacted_eq (text : List Char) (entities : List DetectedEntity)
    (hne : entities.isEmpty = false) :
    (redact text entities).redacted_text
      = applySplices text
          ((assignRecs (fun _ => 0) (resolve_overlaps entities)).map Prod.fst) := by
  unfold redact
  rw [hne]
  simp only [Bool.false_eq_true, if_false]
  rw [redact_placeholders_eq entities]

/-- C1 (amended): round-trip reconstruction holds for every text and every
entity list satisfying the detection data-model invariant, provided no
placeholder assigned by this redaction occurs as a substring of the original
text.  (The unconditional claim fails when the original text contains a
placeholder token, because `deredact` replaces *all* occurrences.) -/
theorem redact_deredact_roundtrip (text : List Char) (E : List DetectedEntity)
    (hE : DetectedList text E)
    (hph : ∀ kv ∈ (redact text E).mapping, ¬ kv.1 <:+: text) :
    deredact (redact text E).redacted_text (redact text E).mapping = text := by
  rcases hne : E.isEmpty with _ | _
  · -- non-empty case
    have hmap := redact_mapping_eq text E hne
    have hrt := redact_redacted_eq text E hne
    have hsub := resolve_overlaps_subset E
    have hok : SpansOK text.length 0
        ((assignRecs (fun _ => 0) (resolve_overlaps E)).map Prod.fst) := by
      refine assignRecs_spansOK (resolve_overlaps E) (fun _ => 0) 0 ?_
      refine entSpansOK_of_pairwise (resolve_overlaps E) 0
        (resolve_overlaps_pairwise E) ?_ (fun x _ => Nat.zero_le _) (Nat.zero_le _)
      intro x hx
      obtain ⟨_, h2, h3⟩ := hE x (hsub x hx)
      exact ⟨h2, h3⟩
    have hsegs := applySplices_eq_segs text
      ((assignRecs (fun _ => 0) (resolve_overlaps E)).map Prod.fst) 0 hok
    unfold deredact
    rw [hmap, hrt, hsegs]
    refine deredact_restores text (assignRecs (fun _ => 0) (resolve_overlaps E)) 0
      hok ?_ ?_ ?_ ?_
    · intro r hr
      obtain ⟨e, he, hs, hstop, hv, _⟩ := assignRecs_fields _ _ r hr
      rw [hv, hs, hstop]
      exact (hE e (hsub e he)).1
    · intro r hr
      obtain ⟨e, _, _, _, _, n, hphn⟩ := assignRecs_fields _ _ r hr
      rw [hphn]
      exact placeholder_bracketTok e.pii_type n
    · rw [List.pairwise_map]
      exact assignRecs_keys_pairwise (resolve_overlaps E) (fun _ => 0)
    · intro r hr
      refine hph (r.1.2.2, r.2) ?_
      rw [hmap]
      exact List.mem_map.mpr ⟨r, hr, rfl⟩
  · -- empty case: redaction is the identity
    have hE2 : E = [] := List.isEmpty_iff.mp hne
    subst hE2
    rfl

/-- C1 witness: the amended theorem applied to the concrete example text with
its two EMAIL entities (no placeholder occurs in the original text). -/
theorem redact_deredact_roundtrip_witness :
    deredact (redact phText phEnts).redacted_text (redact phText phEnts).mapping
      = phText :=
  redact_deredact_roundtrip phText phEnts (by decide) (by decide)

/-- Text of the C1 counterexample: it already contains the placeholder token
that redaction will assign to its one EMAIL entity. -/
def cxText : List Char := "[EMAIL_1] a@b.co".data

/-- The single EMAIL entity the structured detector finds in `cxText`
(the e-mail pattern of `_REGEX_PATTERNS` matches `a@b.co` at offsets
10–16; nothing matches the placeholder-shaped prefix). -/
def cxEnts : List DetectedEntity :=
  [⟨10, 16, .EMAIL, "a@b.co".data, mkRat 95 100, .regex, none, false⟩]

/-- C1 counterexample: the round-trip claim as stated is false.  For the text
`"[EMAIL_1] a@b.co"` and its detected EMAIL entity (which satisfies the
detection invariant), `deredact` also rewrites the pre-existing literal
`[EMAIL_1]` in the text, so the round trip does not restore the original. -/
theorem roundtrip_counterexample :
    DetectedList cxText cxEnts ∧
    deredact (redact cxText cxEnts).redacted_text (redact cxText cxEnts).mapping
      ≠ cxText := by
  constructor
  · decide
  · decide

-- ---------------------------------------------------------------------------
-- `_merge_results` (src/tools/detect_pii.py)
-- ---------------------------------------------------------------------------

/-- `_GENERIC_NER_TYPES`. -/
def genericNER (t : PIIType) : Bool :=
  match t with
  | .ORGANIZATION | .PERSON | .LOCATION => true
  | _ => false

/-- `_SPECIFIC_REGEX_TYPES`. -/
def specificRegex (t : PIIType) : Bool :=
  match t with
  | .SSN | .CREDIT_CARD | .IP_ADDRESS | .API_KEY | .AADHAAR | .PAN
  | .PHONE | .EMAIL | .ADDRESS | .USERNAME_PASSWORD | .CREDENTIAL => true
  | _ => false

/-- One iteration of the Presidio loop in `_merge_results`.  Note that
`merged.remove(existing)` uses the dataclass `==`, i.e. it removes the first
element with the same `(start, end)` span (`spanEqB`), and that the `append`
sits inside the `for existing in overlapping` loop. -/
def mergeOne (merged : List DetectedEntity) (p : DetectedEntity) :
    List DetectedEntity :=
  if genericNER p.pii_type
      && merged.any (fun m => spans_overlap m p
            && m.source == DetectionSource.regex && specificRegex m.pii_type) then
    merged  -- suppress generic NER
  else
    let overlapping :=
      merged.filter (fun m => spans_overlap m p && m.pii_type == p.pii_type)
    if overlapping.isEmpty then merged ++ [p]
    else
      overlapping.foldl
        (fun acc existing =>
          if existing.confidence < p.confidence then
            (acc.eraseP (fun x => spanEqB x existing)) ++ [p]
          else acc)
        merged

/-- The sort key `(e.start, e.end)` used by `_merge_results` and `detect`. -/
def leStartEnd (a b : DetectedEntity) : Bool :=
  decide (a.start < b.start ∨ (a.start = b.start ∧ a.stop ≤ b.stop))

/-- Python's stable sort by `(start, end)`. -/
def sortSE : List DetectedEntity → List DetectedEntity := sortStable leStartEnd

/-- `_merge_results`: seed with the regex results, process each Presidio
entity, then sort by `(start, end)`. -/
def merge_results (regex_results presidio_results : List DetectedEntity) :
    List DetectedEntity :=
  sortSE (presidio_results.foldl mergeOne regex_results)

theorem spanEqB_comm (a b : DetectedEntity) : spanEqB a b = spanEqB b a := by
  unfold spanEqB
  rcases h1 : a.start == b.start with _ | _ <;>
    rcases h2 : a.stop == b.stop with _ | _ <;>
      simp_all [BEq.comm]

/-- In a span-distinct list, span-equal members are equal. -/
theorem span_distinct_eq {L : List DetectedEntity}
    (h : L.Pairwise (fun a b => spanEqB a b = false)) {a b : DetectedEntity}
    (ha : a ∈ L) (hb : b ∈ L) (hab : spanEqB a b = true) : a = b := by
  induction L with
  | nil => simp at ha
  | cons x rest ih =>
    rcases h with _ | ⟨hx, hrest⟩
    rcases List.mem_cons.mp ha with rfl | ha2
    · rcases List.mem_cons.mp hb with rfl | hb2
      · rfl
      · rw [hx b hb2] at hab; exact absurd hab (by simp)
    · rcases List.mem_cons.mp hb with rfl | hb2
      · rw [spanEqB_comm] at hab
        rw [hx a ha2] at hab; exact absurd hab (by simp)
      · exact ih hrest ha2 hb2

theorem mergeOne_mem {merged : List DetectedEntity} {p : DetectedEntity} :
    ∀ x ∈ mergeOne merged p, x ∈ merged ∨ x = p := by
  unfold mergeOne
  by_cases hsup : (genericNER p.pii_type
      && merged.any (fun m => spans_overlap m p
            && m.source == DetectionSource.regex && specificRegex m.pii_type)) = true
  · rw [if_pos hsup]
    exact fun x hx => Or.inl hx
  · rw [if_neg hsup]
    by_cases hov : (merged.filter
        (fun m => spans_overlap m p && m.pii_type == p.pii_type)).isEmpty = true
    · simp only [hov, if_pos]
      intro x hx
      rcases List.mem_append.mp hx with hx2 | hx2
      · exact Or.inl hx2
      · exact Or.inr (by simpa using hx2)
    · simp only [hov]
      rw [if_neg (by simp [hov])]
      have hgen : ∀ (ov acc : List DetectedEntity),
          (∀ x ∈ acc, x ∈ merged ∨ x = p) →
          ∀ x ∈ ov.foldl (fun acc existing =>
              if existing.confidence < p.confidence then
                (acc.eraseP (fun y => spanEqB y existing)) ++ [p]
              else acc) acc,
            x ∈ merged ∨ x = p := by
        intro ov
        induction ov with
        | nil => intro acc hacc x hx; exact hacc x hx
        | cons m rest ih =>
          intro acc hacc x hx
          rw [List.foldl_cons] at hx
          by_cases hbeat : m.confidence < p.confidence
          · rw [if_pos hbeat] at hx
            refine ih _ ?_ x hx
            intro y hy
            rcases List.mem_append.mp hy with hy2 | hy2
            · exact hacc y (List.mem_of_mem_eraseP hy2)
            · exact Or.inr (by simpa using hy2)
          · rw [if_neg hbeat] at hx
            exact ih acc hacc x hx
      exact hgen _ merged (fun x hx => Or.inl hx)

theorem merge_results_mem {rs ps : List DetectedEntity} :
    ∀ x ∈ merge_results rs ps, x ∈ rs ∨ x ∈ ps := by
  unfold merge_results sortSE
  intro x hx
  rw [mem_sortStable] at hx
  have hgen : ∀ (ps2 acc : List DetectedEntity),
      (∀ y ∈ acc, y ∈ rs ∨ y ∈ ps) → (∀ y ∈ ps2, y ∈ ps) →
      ∀ y ∈ ps2.foldl mergeOne acc, y ∈ rs ∨ y ∈ ps := by
    intro ps2
    induction ps2 with
    | nil => intro acc hacc _ y hy; exact hacc y hy
    | cons p rest ih =>
      intro acc hacc hps y hy
      rw [List.foldl_cons] at hy
      refine ih (mergeOne acc p) ?_ (fun z hz => hps z (by simp [hz])) y hy
      intro z hz
      rcases mergeOne_mem z hz with hz2 | rfl
      · exact hacc z hz2
      · exact Or.inr (hps z (by simp))
  exact hgen ps rs (fun y hy => Or.inl hy) (fun y hy => hy) x hx

/-- A rival of `p` among the merge inputs: a *different* occurrence (not
span-equal, spans are assumed pairwise distinct) of the same type whose span
overlaps `p`'s. -/
def rivalP (p x : DetectedEntity) : Bool :=
  !(spanEqB x p) && spans_overlap x p && (x.pii_type == p.pii_type)

/-- Under span-distinct inputs and at most one rival, one `mergeOne` step
maps a sub-multiset of `L` into a sub-multiset of `L ++ [p]`. -/
theorem mergeOne_sublist {L merged : List DetectedEntity} {p : DetectedEntity}
    (hmer : merged.Sublist L)
    (hcount : L.countP (rivalP p) ≤ 1)
    (hns : ∀ x ∈ L, spanEqB x p = false) :
    (mergeOne merged p).Sublist (L ++ [p]) := by
  unfold mergeOne
  by_cases hsup : (genericNER p.pii_type
      && merged.any (fun m => spans_overlap m p
            && m.source == DetectionSource.regex && specificRegex m.pii_type)) = true
  · rw [if_pos hsup]
    exact hmer.trans (List.sublist_append_left L [p])
  · rw [if_neg hsup]
    have hlen : (merged.filter
        (fun m => spans_overlap m p && m.pii_type == p.pii_type)).length ≤ 1 := by
      rw [← List.countP_eq_length_filter]
      calc merged.countP (fun m => spans_overlap m p && m.pii_type == p.pii_type)
          = merged.countP (rivalP p) := by
            refine List.countP_congr ?_
            intro a ha
            have hba := hns a (hmer.subset ha)
            simp [rivalP, hba]
        _ ≤ L.countP (rivalP p) := List.Sublist.countP_le _ hmer
        _ ≤ 1 := hcount
    rcases hov : merged.filter
        (fun m => spans_overlap m p && m.pii_type == p.pii_type) with _ | ⟨m, rest⟩
    · simp only [List.isEmpty_nil, if_pos]
      exact hmer.append_right [p]
    · rw [hov] at hlen
      have hrest : rest = [] := by
        rw [List.length_cons] at hlen
        exact List.length_eq_zero.mp (by omega)
      subst hrest
      simp only [List.isEmpty_cons]
      rw [if_neg (by simp)]
      rw [List.foldl_cons, List.foldl_nil]
      by_cases hbeat : m.confidence < p.confidence
      · rw [if_pos hbeat]
        exact ((List.eraseP_sublist merged).trans hmer).append_right [p]
      · rw [if_neg hbeat]
        exact hmer.trans (List.sublist_append_left L [p])

/-- The full Presidio fold, as a sub-multiset of the combined inputs. -/
theorem mergeFold_sublist :
    ∀ (ps2 acc L : List DetectedEntity),
      acc.Sublist L →
      (L ++ ps2).Pairwise (fun a b => spanEqB a b = false) →
      (∀ p ∈ ps2, (L ++ ps2).countP (rivalP p) ≤ 1) →
      (ps2.foldl mergeOne acc).Sublist (L ++ ps2) := by
  intro ps2
  induction ps2 with
  | nil => intro acc L hacc _ _; simpa using hacc
  | cons p rest ih =>
    intro acc L hacc hdist hone
    rw [List.foldl_cons]
    have hns : ∀ x ∈ L, spanEqB x p = false := by
      intro x hx
      exact ((List.pairwise_append.mp hdist).2.2) x hx p (by simp)
    have hcount : L.countP (rivalP p) ≤ 1 := by
      refine le_trans (List.Sublist.countP_le _ (List.sublist_append_left L (p :: rest))) ?_
      exact hone p (by simp)
    have hstep := mergeOne_sublist hacc hcount hns
    have hassoc : L ++ p :: rest = (L ++ [p]) ++ rest := by simp
    rw [hassoc]
    refine ih (mergeOne acc p) (L ++ [p]) hstep ?_ ?_
    · rw [← hassoc]; exact hdist
    · intro q hq
      rw [← hassoc]
      exact hone q (by simp [hq])

/-- C3 (amended): the Merge Engine output contains no two entities with
identical `(start, end, entity_type)` — *provided* that no two input
entities (across both lists) share an identical `(start, end)` span and that
each NER entity has at most one same-typed overlapping rival among the
inputs.  (As stated, the claim fails: same-typed duplicate spans in the
structured input survive the merge untouched, `remove` matches by span only,
and an NER entity beating several same-typed rivals is appended once per
rival.) -/
theorem merge_results_key_unique (rs ps : List DetectedEntity)
    (hdist : (rs ++ ps).Pairwise (fun a b => spanEqB a b = false))
    (hone : ∀ p ∈ ps, (rs ++ ps).countP (rivalP p) ≤ 1) :
    (merge_results rs ps).Pairwise
      (fun a b => ¬(a.start = b.start ∧ a.stop = b.stop ∧ a.pii_type = b.pii_type)) := by
  have hsub : (ps.foldl mergeOne rs).Sublist (rs ++ ps) :=
    mergeFold_sublist ps rs rs (List.Sublist.refl rs) hdist hone
  have hpw : (ps.foldl mergeOne rs).Pairwise (fun a b => spanEqB a b = false) :=
    List.Pairwise.sublist hsub hdist
  have hperm := sortStable_perm leStartEnd (ps.foldl mergeOne rs)
  have hsymm : ∀ {x y : DetectedEntity},
      (fun a b => spanEqB a b = false) x y → (fun a b => spanEqB a b = false) y x := by
    intro x y h
    rw [spanEqB_comm]
    exact h
  have hpw2 : (merge_results rs ps).Pairwise (fun a b => spanEqB a b = false) := by
    unfold merge_results sortSE
    exact (List.Perm.pairwise_iff hsymm hperm).mpr hpw
  refine hpw2.imp ?_
  intro a b hab habs
  obtain ⟨h1, h2, _⟩ := habs
  unfold spanEqB at hab
  rw [h1, h2] at hab
  simp at hab

/-- C3 counterexample: the claim as stated is false.  On the spec's own §8
input `"card 4111-1111-1111-1111 expired"`, the Visa pattern (confidence
0.90) and the generic 16-digit pattern (confidence 0.70) both match the same
span with the same type CREDIT_CARD, and the Merge Engine keeps both: the
output contains two entities with identical `(start, end, entity_type)`. -/
theorem merge_uniqueness_counterexample :
    ¬ (merge_results
        [⟨5, 24, .CREDIT_CARD, "4111-1111-1111-1111".data, mkRat 90 100,
          .regex, none, false⟩,
         ⟨5, 24, .CREDIT_CARD, "4111-1111-1111-1111".data, mkRat 70 100,
          .regex, none, false⟩]
        []).Pairwise
      (fun a b => ¬(a.start = b.start ∧ a.stop = b.stop
        ∧ a.pii_type = b.pii_type)) := by
  decide

/-- C3 witness: the amended theorem applied to a concrete span-distinct pair
of inputs in which an NER phone entity beats a single overlapping regex
phone entity. -/
theorem merge_results_key_unique_witness :
    (merge_results
        [⟨0, 5, .PHONE, "55512".data, mkRat 50 100, .regex, none, false⟩]
        [⟨0, 4, .PHONE, "5551".data, mkRat 90 100, .presidio, none, false⟩]).Pairwise
      (fun a b => ¬(a.start = b.start ∧ a.stop = b.stop
        ∧ a.pii_type = b.pii_type)) :=
  merge_results_key_unique
    [⟨0, 5, .PHONE, "55512".data, mkRat 50 100, .regex, none, false⟩]
    [⟨0, 4, .PHONE, "5551".data, mkRat 90 100, .presidio, none, false⟩]
    (by decide) (by decide)

/-- A member missing from `eraseP q` must itself satisfy `q` (only one
element is erased, so every occurrence of the missing member was that
element). -/
theorem eraseP_mem_q {α : Type} {q : α → Bool} {l : List α} {r : α}
    (hr : r ∈ l) (hout : r ∉ l.eraseP q) : q r = true := by
  by_contra hq
  exact hout ((@List.mem_eraseP_of_neg _ q r l hq).mpr hr)

/-- An entity missing after the inner `for existing in overlapping` loop was
erased at some step: it is span-equal to an `existing` the NER entity `p`
beat on confidence.  No bound on the number of rivals is needed. -/
theorem innerFold_drop {p r : DetectedEntity} :
    ∀ (ov acc : List DetectedEntity), r ∈ acc →
      r ∉ ov.foldl (fun acc existing =>
          if existing.confidence < p.confidence then
            (acc.eraseP (fun x => spanEqB x existing)) ++ [p]
          else acc) acc →
      ∃ ex ∈ ov, spanEqB r ex = true ∧ ex.confidence < p.confidence := by
  intro ov
  induction ov with
  | nil => intro acc hr hout; exact absurd hr hout
  | cons ex rest ih =>
    intro acc hr hout
    rw [List.foldl_cons] at hout
    by_cases hbeat : ex.confidence < p.confidence
    · rw [if_pos hbeat] at hout
      by_cases hin : r ∈ (acc.eraseP (fun x => spanEqB x ex)) ++ [p]
      · obtain ⟨e2, he2, hc⟩ := ih _ hin hout
        exact ⟨e2, List.mem_cons_of_mem ex he2, hc⟩
      · have hr2 : r ∉ acc.eraseP (fun x => spanEqB x ex) :=
          fun h => hin (List.mem_append.mpr (Or.inl h))
        exact ⟨ex, List.mem_cons_self ex rest,
          @eraseP_mem_q _ (fun x => spanEqB x ex) acc r hr hr2, hbeat⟩
    · rw [if_neg hbeat] at hout
      obtain ⟨e2, he2, hc⟩ := ih acc hr hout
      exact ⟨e2, List.mem_cons_of_mem ex he2, hc⟩

/-- Under span-distinct inputs, an entity disappears in a `mergeOne` step
only if it is itself a same-typed, overlapping, lower-confidence entity the
NER entity beat: span-distinctness identifies the erased span-equal element
with the `existing` being processed, whatever the number of rivals. -/
theorem mergeOne_drop {L merged : List DetectedEntity} {p r : DetectedEntity}
    (hmem : ∀ x ∈ merged, x ∈ L)
    (hdistL : L.Pairwise (fun a b => spanEqB a b = false))
    (hr : r ∈ merged) (hout : r ∉ mergeOne merged p) :
    spans_overlap r p = true ∧ r.pii_type = p.pii_type
      ∧ r.confidence < p.confidence := by
  unfold mergeOne at hout
  by_cases hsup : (genericNER p.pii_type
      && merged.any (fun m => spans_overlap m p
            && m.source == DetectionSource.regex && specificRegex m.pii_type)) = true
  · rw [if_pos hsup] at hout
    exact absurd hr hout
  · rw [if_neg hsup] at hout
    by_cases hov : (merged.filter
        (fun m => spans_overlap m p && m.pii_type == p.pii_type)).isEmpty = true
    · simp only [hov, if_pos] at hout
      exact absurd (List.mem_append.mpr (Or.inl hr)) hout
    · simp only [hov] at hout
      rw [if_neg (by simp [hov])] at hout
      obtain ⟨ex, hex, hq, hbeat⟩ := innerFold_drop
        (merged.filter (fun m => spans_overlap m p && m.pii_type == p.pii_type))
        merged hr hout
      obtain ⟨hexm, hexp⟩ := List.mem_filter.mp hex
      have hrex : r = ex := span_distinct_eq hdistL (hmem r hr) (hmem ex hexm) hq
      subst hrex
      simp only [Bool.and_eq_true, beq_iff_eq] at hexp
      exact ⟨hexp.1, hexp.2, hbeat⟩

/-- Lifting the drop reason through the whole Presidio fold, with only the
span-distinctness of the combined inputs. -/
theorem mergeFold_drop :
    ∀ (ps2 acc L : List DetectedEntity) (r : DetectedEntity),
      (∀ x ∈ acc, x ∈ L) → (∀ p ∈ ps2, p ∈ L) →
      L.Pairwise (fun a b => spanEqB a b = false) →
      r ∈ acc → r ∉ ps2.foldl mergeOne acc →
      ∃ p ∈ ps2, spans_overlap r p = true ∧ r.pii_type = p.pii_type
        ∧ r.confidence < p.confidence := by
  intro ps2
  induction ps2 with
  | nil =>
    intro acc L r _ _ _ hr hout
    exact absurd hr hout
  | cons p rest ih =>
    intro acc L r hacc hps hdist hr hout
    rw [List.foldl_cons] at hout
    by_cases hin : r ∈ mergeOne acc p
    · have hacc2 : ∀ x ∈ mergeOne acc p, x ∈ L := by
        intro x hx
        rcases mergeOne_mem x hx with h | h
        · exact hacc x h
        · rw [h]; exact hps p (List.mem_cons_self p rest)
      obtain ⟨q, hq, hcond⟩ := ih (mergeOne acc p) L r hacc2
        (fun q hq => hps q (List.mem_cons_of_mem p hq)) hdist hin hout
      exact ⟨q, List.mem_cons_of_mem p hq, hcond⟩
    · exact ⟨p, List.mem_cons_self p rest, mergeOne_drop hacc hdist hr hin⟩

/-- C8 (amended): merge conflict resolution is type-local — *provided* no
two input entities (across both lists) share an identical `(start, end)`
span.  Then a structured entity is missing from the output only if a
same-typed overlapping NER entity of strictly higher confidence beat it,
and in particular every structured entity whose type differs from all NER
entities is preserved, whatever the number of same-typed rivals.  (As
stated, the claim fails: `merged.remove(existing)` matches by the dataclass
equality, i.e. by `(start, end)` alone, so it can remove a different-typed
entity at the same span; and the lower-confidence same-typed entity can
survive in its place.) -/
theorem merge_type_local (rs ps : List DetectedEntity)
    (hdist : (rs ++ ps).Pairwise (fun a b => spanEqB a b = false)) :
    (∀ r ∈ rs, r ∉ merge_results rs ps →
      ∃ p ∈ ps, spans_overlap r p = true ∧ r.pii_type = p.pii_type
        ∧ r.confidence < p.confidence) ∧
    (∀ r ∈ rs, (∀ p ∈ ps, p.pii_type ≠ r.pii_type) →
      r ∈ merge_results rs ps) := by
  have hmem : ∀ r, r ∈ merge_results rs ps ↔ r ∈ ps.foldl mergeOne rs := by
    intro r
    unfold merge_results sortSE
    exact mem_sortStable leStartEnd
  constructor
  · intro r hr hout
    exact mergeFold_drop ps rs (rs ++ ps) r
      (fun x hx => List.mem_append.mpr (Or.inl hx))
      (fun p hp => List.mem_append.mpr (Or.inr hp))
      hdist hr (fun h => hout ((hmem r).mpr h))
  · intro r hr htype
    by_contra hout
    obtain ⟨p, hp, _, htyp, _⟩ := mergeFold_drop ps rs (rs ++ ps) r
      (fun x hx => List.mem_append.mpr (Or.inl hx))
      (fun p hp => List.mem_append.mpr (Or.inr hp))
      hdist hr (fun h => hout ((hmem r).mpr h))
    exact htype p hp htyp.symm

/-- C8 counterexample: the claim as stated is false.  With structured
entities EMAIL and PHONE on the same span `(0,5)` and an NER PHONE entity on
that span with confidence between them, the merge removes the *EMAIL* entity
(`remove` matches the first element with equal `(start, end)`), even though
its type differs from the NER entity — and the lower-confidence PHONE entity
it was supposed to drop survives in the output. -/
theorem merge_type_local_counterexample :
    (∀ p ∈ [(⟨0, 5, .PHONE, "55512".data, mkRat 80 100, .presidio, none,
        false⟩ : DetectedEntity)], p.pii_type ≠ PIIType.EMAIL) ∧
    (⟨0, 5, .EMAIL, "a@b.c".data, mkRat 90 100, .regex, none, false⟩
        : DetectedEntity) ∈
      [⟨0, 5, .EMAIL, "a@b.c".data, mkRat 90 100, .regex, none, false⟩,
       ⟨0, 5, .PHONE, "55512".data, mkRat 50 100, .regex, none, false⟩] ∧
    (⟨0, 5, .EMAIL, "a@b.c".data, mkRat 90 100, .regex, none, false⟩
        : DetectedEntity) ∉
      merge_results
        [⟨0, 5, .EMAIL, "a@b.c".data, mkRat 90 100, .regex, none, false⟩,
         ⟨0, 5, .PHONE, "55512".data, mkRat 50 100, .regex, none, false⟩]
        [⟨0, 5, .PHONE, "55512".data, mkRat 80 100, .presidio, none, false⟩] ∧
    (⟨0, 5, .PHONE, "55512".data, mkRat 50 100, .regex, none, false⟩
        : DetectedEntity) ∈
      merge_results
        [⟨0, 5, .EMAIL, "a@b.c".data, mkRat 90 100, .regex, none, false⟩,
         ⟨0, 5, .PHONE, "55512".data, mkRat 50 100, .regex, none, false⟩]
        [⟨0, 5, .PHONE, "55512".data, mkRat 80 100, .presidio, none, false⟩] := by
  refine ⟨by decide, by decide, by decide, by decide⟩

/-- C8 witness: the amended theorem applied to a span-distinct input pair in
which the structured PHONE entity loses to an overlapping NER PHONE entity
of higher confidence. -/
theorem merge_type_local_witness :
    ∃ p ∈ [(⟨0, 4, .PHONE, "5551".data, mkRat 90 100, .presidio, none,
        false⟩ : DetectedEntity)],
      spans_overlap
        (⟨0, 5, .PHONE, "55512".data, mkRat 50 100, .regex, none, false⟩
          : DetectedEntity) p = true ∧
      (⟨0, 5, .PHONE, "55512".data, mkRat 50 100, .regex, none, false⟩
        : DetectedEntity).pii_type = p.pii_type ∧
      (⟨0, 5, .PHONE, "55512".data, mkRat 50 100, .regex, none, false⟩
        : DetectedEntity).confidence < p.confidence :=
  (merge_type_local
    [⟨0, 5, .PHONE, "55512".data, mkRat 50 100, .regex, none, false⟩]
    [⟨0, 4, .PHONE, "5551".data, mkRat 90 100, .presidio, none, false⟩]
    (by decide)).1
    ⟨0, 5, .PHONE, "55512".data, mkRat 50 100, .regex, none, false⟩
    (by decide) (by decide)

-- ---------------------------------------------------------------------------
-- LLM validator (src/tools/llm_validator.py)
-- ---------------------------------------------------------------------------

/-- The parsed JSON object an oracle call returns (the dict produced by
`_call_ollama`), with both fields optional as in a Python dict.  A failed or
unparsable call is `none` at the `Option LlmResult` level. -/
structure LlmResult where
  is_pii : Option Bool
  confidence : Option ℚ
  deriving DecidableEq, Repr

/-- `_compute_final_confidence`: blend the detector score with the oracle
verdict; fail-open on `none`. -/
def compute_final_confidence (detector_score : ℚ)
    (llm_result : Option LlmResult) : ℚ × Option ℚ × Bool :=
  match llm_result with
  | none => (detector_score, none, false)
  | some r =>
    let is_pii := r.is_pii.getD true
    let llm_conf := max 0 (min 1 (r.confidence.getD (mkRat 5 10)))  -- clamp
    if is_pii then
      (mkRat 6 10 * detector_score + mkRat 4 10 * llm_conf, some llm_conf, true)
    else
      (detector_score * mkRat 3 10, some llm_conf, true)

/-- `_extract_context`: a fixed window of `LLM_CONTEXT_CHARS` characters on
each side of the entity (`max(0, ...)` is Nat truncation). -/
def extract_context (text : List Char) (e : DetectedEntity) : List Char :=
  pySlice text (e.start - LLM_CONTEXT_CHARS)
    (min text.length (e.stop + LLM_CONTEXT_CHARS))

/-- The `updated` entity built in the loop of `validate_entities`: new
confidence and LLM metadata, all other fields copied. -/
def validateUpdated (entity : DetectedEntity) (r : LlmResult) : DetectedEntity :=
  let fc := compute_final_confidence entity.confidence (some r)
  { start := entity.start, stop := entity.stop, pii_type := entity.pii_type,
    value := entity.value, confidence := fc.1, source := entity.source,
    pre_llm_confidence := some entity.confidence, llm_validated := fc.2.2 }

/-- The loop of `validate_entities`, instrumented: each output entity is
paired with a flag recording whether it triggered an oracle call.  The
`oracle` parameter is the external judgment capability
(`_call_ollama` on the prompt built from the entity and its context);
`elapsed i` is the value of `time.monotonic() - budget_start` read at the
top of iteration `i`. -/
def validateGo (oracle : DetectedEntity → List Char → Option LlmResult)
    (text : List Char) (elapsed : Nat → ℚ) :
    Nat → Bool → List DetectedEntity → List (DetectedEntity × Bool)
  | _, _, [] => []
  | i, ollama_available, entity :: rest =>
    let needs_llm := ollama_available
      && decide (elapsed i < LLM_TOTAL_BUDGET)
      && decide (LLM_CONFIDENCE_LOW ≤ entity.confidence)
      && decide (entity.confidence ≤ LLM_CONFIDENCE_HIGH)
    if needs_llm then
      match oracle entity (extract_context text entity) with
      | none =>
        -- first failure: mark the oracle unavailable for remaining entities
        (entity, true) :: validateGo oracle text elapsed (i + 1) false rest
      | some r =>
        (validateUpdated entity r, true)
          :: validateGo oracle text elapsed (i + 1) ollama_available rest
    else (entity, false) :: validateGo oracle text elapsed (i + 1) ollama_available rest

/-- `validate_entities` from `src/tools/llm_validator.py`. -/
def validate_entities (oracle : DetectedEntity → List Char → Option LlmResult)
    (elapsed : Nat → ℚ) (entities : List DetectedEntity) (text : List Char) :
    List DetectedEntity :=
  if entities.isEmpty then entities
  else (validateGo oracle text elapsed 0 true entities).map Prod.fst

/-- If the oracle always fails, every entity passes through unchanged. -/
theorem validateGo_failopen {oracle : DetectedEntity → List Char → Option LlmResult}
    (hfail : ∀ e ctx, oracle e ctx = none) (text : List Char) (elapsed : Nat → ℚ) :
    ∀ (l : List DetectedEntity) (i : Nat) (avail : Bool),
      (validateGo oracle text elapsed i avail l).map Prod.fst = l := by
  intro l
  induction l with
  | nil => intro i avail; rfl
  | cons e rest ih =>
    intro i avail
    unfold validateGo
    by_cases hneeds : (avail && decide (elapsed i < LLM_TOTAL_BUDGET)
        && decide (LLM_CONFIDENCE_LOW ≤ e.confidence)
        && decide (e.confidence ≤ LLM_CONFIDENCE_HIGH)) = true
    · rw [if_pos hneeds, hfail e (extract_context text e)]
      simp only [List.map_cons]
      rw [ih]
    · rw [if_neg hneeds]
      simp only [List.map_cons]
      rw [ih]

/-- Fail-open at the `validate_entities` level: an always-failing oracle
leaves the entity list exactly unchanged. -/
theorem validate_entities_failopen
    {oracle : DetectedEntity → List Char → Option LlmResult}
    (hfail : ∀ e ctx, oracle e ctx = none) (elapsed : Nat → ℚ)
    (entities : List DetectedEntity) (text : List Char) :
    validate_entities oracle elapsed entities text = entities := by
  unfold validate_entities
  by_cases he : entities.isEmpty = true
  · rw [if_pos he]
  · rw [if_neg he]
    exact validateGo_failopen hfail text elapsed entities 0 true

/-- Frame of the loop: the output is index-aligned with the input and each
output entity keeps the span, type, value and source of its input entity. -/
theorem validateGo_frame (oracle : DetectedEntity → List Char → Option LlmResult)
    (text : List Char) (elapsed : Nat → ℚ) :
    ∀ (l : List DetectedEntity) (i : Nat) (avail : Bool),
      List.Forall₂ (fun a b => b.start = a.start ∧ b.stop = a.stop
          ∧ b.pii_type = a.pii_type ∧ b.value = a.value ∧ b.source = a.source)
        l ((validateGo oracle text elapsed i avail l).map Prod.fst) := by
  intro l
  induction l with
  | nil => intro i avail; exact List.Forall₂.nil
  | cons e rest ih =>
    intro i avail
    unfold validateGo
    by_cases hneeds : (avail && decide (elapsed i < LLM_TOTAL_BUDGET)
        && decide (LLM_CONFIDENCE_LOW ≤ e.confidence)
        && decide (e.confidence ≤ LLM_CONFIDENCE_HIGH)) = true
    · rw [if_pos hneeds]
      match oracle e (extract_context text e) with
      | none =>
        exact List.Forall₂.cons ⟨rfl, rfl, rfl, rfl, rfl⟩ (ih (i + 1) false)
      | some r =>
        exact List.Forall₂.cons ⟨rfl, rfl, rfl, rfl, rfl⟩ (ih (i + 1) avail)
    · rw [if_neg hneeds]
      exact List.Forall₂.cons ⟨rfl, rfl, rfl, rfl, rfl⟩ (ih (i + 1) avail)

/-- Right-membership extraction from `Forall₂`. -/
theorem forall₂_mem_right {α β : Type} {R : α → β → Prop} :
    ∀ {l1 : List α} {l2 : List β}, List.Forall₂ R l1 l2 →
      ∀ b ∈ l2, ∃ a ∈ l1, R a b := by
  intro l1 l2 h
  induction h with
  | nil => intro b hb; simp at hb
  | cons hR htail ih =>
    intro b hb
    rcases List.mem_cons.mp hb with rfl | hb2
    · exact ⟨_, by simp, hR⟩
    · obtain ⟨a, ha, hab⟩ := ih b hb2
      exact ⟨a, by simp [ha], hab⟩

/-- C6: oracle confidence blending in `_compute_final_confidence`.  When the
oracle confirms (`is_pii = true`) the final confidence is
`0.6 * original + 0.4 * oracle_confidence` with the oracle confidence
clamped to `[0, 1]`; when it denies (`is_pii = false`) it is
`original * 0.3`; when the call fails or the output is unparsable (`none`)
the confidence is unchanged and the `validated` flag stays false. -/
theorem compute_final_confidence_spec :
    (∀ d : ℚ, compute_final_confidence d none = (d, none, false)) ∧
    (∀ (d : ℚ) (r : LlmResult), r.is_pii = some true →
      compute_final_confidence d (some r)
        = (mkRat 6 10 * d
            + mkRat 4 10 * max 0 (min 1 (r.confidence.getD (mkRat 5 10))),
           some (max 0 (min 1 (r.confidence.getD (mkRat 5 10)))), true)) ∧
    (∀ (d : ℚ) (r : LlmResult), r.is_pii = some false →
      compute_final_confidence d (some r)
        = (d * mkRat 3 10,
           some (max 0 (min 1 (r.confidence.getD (mkRat 5 10)))), true)) := by
  refine ⟨fun d => rfl, ?_, ?_⟩
  · intro d r h
    simp [compute_final_confidence, h]
  · intro d r h
    simp [compute_final_confidence, h]

/-- C6 witness: the blending equations applied at a concrete confirming
oracle verdict. -/
theorem compute_final_confidence_spec_witness :
    compute_final_confidence (mkRat 7 10)
        (some ⟨some true, some (mkRat 9 10)⟩)
      = (mkRat 6 10 * mkRat 7 10
          + mkRat 4 10
            * max 0 (min 1 ((some (mkRat 9 10)).getD (mkRat 5 10))),
         some (max 0 (min 1 ((some (mkRat 9 10)).getD (mkRat 5 10)))), true) :=
  compute_final_confidence_spec.2.1 (mkRat 7 10) ⟨some true, some (mkRat 9 10)⟩ rfl

/-- Helper: the validator relates input to output elementwise, preserving
the identifying fields. -/
theorem validate_entities_preserves
    (oracle : DetectedEntity → List Char → Option LlmResult)
    (elapsed : Nat → ℚ) (entities : List DetectedEntity) (text : List Char) :
    List.Forall₂ (fun a b => b.start = a.start ∧ b.stop = a.stop
        ∧ b.pii_type = a.pii_type ∧ b.value = a.value ∧ b.source = a.source)
      entities (validate_entities oracle elapsed entities text) := by
  unfold validate_entities
  by_cases he : entities.isEmpty = true
  · rw [if_pos he]
    rw [List.isEmpty_iff.mp he]
    exact List.Forall₂.nil
  · rw [if_neg he]
    exact validateGo_frame oracle text elapsed entities 0 true

/-- C10: frame effect of `validate_entities` — the output has exactly the
input's length and order, and every output entity keeps its input entity's
`start`, `end`, `pii_type`, `value` and `source`; only `confidence`,
`pre_llm_confidence` and `llm_validated` may change. -/
theorem validate_entities_frame
    (oracle : DetectedEntity → List Char → Option LlmResult)
    (elapsed : Nat → ℚ) (entities : List DetectedEntity) (text : List Char) :
    (validate_entities oracle elapsed entities text).length = entities.length ∧
    List.Forall₂ (fun a b => b.start = a.start ∧ b.stop = a.stop
        ∧ b.pii_type = a.pii_type ∧ b.value = a.value ∧ b.source = a.source)
      entities (validate_entities oracle elapsed entities text) := by
  have hfor := validate_entities_preserves oracle elapsed entities text
  exact ⟨(List.Forall₂.length_eq hfor).symm, hfor⟩

-- ---------------------------------------------------------------------------
-- Circuit-breaker behaviour of the validator loop (C7)
-- ---------------------------------------------------------------------------

/-- With the breaker tripped (`ollama_available = false`) every entity
passes through unchanged, without oracle calls. -/
theorem validateGo_tripped (oracle : DetectedEntity → List Char → Option LlmResult)
    (text : List Char) (elapsed : Nat → ℚ) :
    ∀ (l : List DetectedEntity) (i : Nat),
      validateGo oracle text elapsed i false l = l.map (fun e => (e, false)) := by
  intro l
  induction l with
  | nil => intro i; rfl
  | cons e rest ih =>
    intro i
    unfold validateGo
    rw [if_neg (by simp)]
    simp only [List.map_cons]
    rw [ih]

/-- One step of the loop: the output is a head for the first entity followed
by the loop on the rest, at index `i0 + 1`, with some availability flag. -/
theorem validateGo_cons (oracle : DetectedEntity → List Char → Option LlmResult)
    (text : List Char) (elapsed : Nat → ℚ) (e : DetectedEntity)
    (rest : List DetectedEntity) (i0 : Nat) (avail : Bool) :
    ∃ hd avail2, validateGo oracle text elapsed i0 avail (e :: rest)
      = hd :: validateGo oracle text elapsed (i0 + 1) avail2 rest := by
  by_cases hneeds : (avail && decide (elapsed i0 < LLM_TOTAL_BUDGET)
      && decide (LLM_CONFIDENCE_LOW ≤ e.confidence)
      && decide (e.confidence ≤ LLM_CONFIDENCE_HIGH)) = true
  · match horacle : oracle e (extract_context text e) with
    | none =>
      refine ⟨(e, true), false, ?_⟩
      conv_lhs => unfold validateGo
      rw [if_pos hneeds, horacle]
    | some r =>
      refine ⟨(validateUpdated e r, true), avail, ?_⟩
      conv_lhs => unfold validateGo
      rw [if_pos hneeds, horacle]
  · refine ⟨(e, false), avail, ?_⟩
    conv_lhs => unfold validateGo
    rw [if_neg hneeds]

/-- After a failed oracle call at position `i`, every later entity passes
through unchanged and triggers no oracle call. -/
theorem validateGo_breaker (oracle : DetectedEntity → List Char → Option LlmResult)
    (text : List Char) (elapsed : Nat → ℚ) :
    ∀ (l : List DetectedEntity) (i0 : Nat) (avail : Bool) (i j : Nat)
      (ei : DetectedEntity), i < j →
      l[i]? = some ei →
      (validateGo oracle text elapsed i0 avail l)[i]?.map Prod.snd = some true →
      oracle ei (extract_context text ei) = none →
      (validateGo oracle text elapsed i0 avail l)[j]?
        = l[j]?.map (fun e => (e, false)) := by
  intro l
  induction l with
  | nil =>
    intro i0 avail i j ei _ hli _ _
    simp at hli
  | cons e rest ih =>
    intro i0 avail i j ei hij hli hcalled hfail
    match i, j with
    | 0, j + 1 =>
      rw [List.getElem?_cons_zero] at hli
      have hei : ei = e := by injection hli with h; exact h.symm
      subst hei
      by_cases hneeds : (avail && decide (elapsed i0 < LLM_TOTAL_BUDGET)
          && decide (LLM_CONFIDENCE_LOW ≤ ei.confidence)
          && decide (ei.confidence ≤ LLM_CONFIDENCE_HIGH)) = true
      · have hgo : validateGo oracle text elapsed i0 avail (ei :: rest)
            = (ei, true) :: validateGo oracle text elapsed (i0 + 1) false rest := by
          conv_lhs => unfold validateGo
          rw [if_pos hneeds, hfail]
        rw [hgo, List.getElem?_cons_succ, List.getElem?_cons_succ,
          validateGo_tripped, List.getElem?_map]
      · have hgo : validateGo oracle text elapsed i0 avail (ei :: rest)
            = (ei, false) :: validateGo oracle text elapsed (i0 + 1) avail rest := by
          conv_lhs => unfold validateGo
          rw [if_neg hneeds]
        rw [hgo, List.getElem?_cons_zero] at hcalled
        simp at hcalled
    | i + 1, j + 1 =>
      rw [List.getElem?_cons_succ] at hli
      have hij2 : i < j := by omega
      obtain ⟨hd, avail2, hgo⟩ :=
        validateGo_cons oracle text elapsed e rest i0 avail
      rw [hgo, List.getElem?_cons_succ] at hcalled
      rw [hgo, List.getElem?_cons_succ, List.getElem?_cons_succ]
      exact ih (i0 + 1) avail2 i j ei hij2 hli hcalled hfail

/-- Once the cumulative budget is exhausted at an iteration, that iteration
passes its entity through unchanged without an oracle call. -/
theorem validateGo_budget (oracle : DetectedEntity → List Char → Option LlmResult)
    (text : List Char) (elapsed : Nat → ℚ) :
    ∀ (l : List DetectedEntity) (i0 : Nat) (avail : Bool) (j : Nat),
      LLM_TOTAL_BUDGET ≤ elapsed (i0 + j) →
      (validateGo oracle text elapsed i0 avail l)[j]?
        = l[j]?.map (fun e => (e, false)) := by
  intro l
  induction l with
  | nil => intro i0 avail j _; simp [validateGo]
  | cons e rest ih =>
    intro i0 avail j hbud
    match j with
    | 0 =>
      have hlt : ¬ (elapsed i0 < LLM_TOTAL_BUDGET) := by
        rw [Nat.add_zero] at hbud
        exact not_lt.mpr hbud
      unfold validateGo
      rw [if_neg (by simp [hlt])]
      rw [List.getElem?_cons_zero, List.getElem?_cons_zero]
      rfl
    | j + 1 =>
      have hbud2 : LLM_TOTAL_BUDGET ≤ elapsed ((i0 + 1) + j) := by
        have harr : (i0 + 1) + j = i0 + (j + 1) := by omega
        rw [harr]
        exact hbud
      obtain ⟨hd, avail2, hgo⟩ :=
        validateGo_cons oracle text elapsed e rest i0 avail
      rw [hgo, List.getElem?_cons_succ, List.getElem?_cons_succ]
      exact ih (i0 + 1) avail2 j hbud2

/-- An entity outside the medium confidence band never triggers an oracle
call and passes through unchanged. -/
theorem validateGo_band (oracle : DetectedEntity → List Char → Option LlmResult)
    (text : List Char) (elapsed : Nat → ℚ) :
    ∀ (l : List DetectedEntity) (i0 : Nat) (avail : Bool) (j : Nat)
      (ej : DetectedEntity),
      l[j]? = some ej →
      (ej.confidence < LLM_CONFIDENCE_LOW ∨ LLM_CONFIDENCE_HIGH < ej.confidence) →
      (validateGo oracle text elapsed i0 avail l)[j]? = some (ej, false) := by
  intro l
  induction l with
  | nil => intro i0 avail j ej hj _; simp at hj
  | cons e rest ih =>
    intro i0 avail j ej hj hband
    match j with
    | 0 =>
      rw [List.getElem?_cons_zero] at hj
      have hej : ej = e := by injection hj with h; exact h.symm
      subst hej
      have hneeds : (avail && decide (elapsed i0 < LLM_TOTAL_BUDGET)
          && decide (LLM_CONFIDENCE_LOW ≤ ej.confidence)
          && decide (ej.confidence ≤ LLM_CONFIDENCE_HIGH)) = false := by
        rcases hband with hb | hb
        · have : ¬ (LLM_CONFIDENCE_LOW ≤ ej.confidence) := not_le.mpr hb
          simp [this]
        · have : ¬ (ej.confidence ≤ LLM_CONFIDENCE_HIGH) := not_le.mpr hb
          simp [this]
      unfold validateGo
      rw [if_neg (by simp [hneeds])]
      rw [List.getElem?_cons_zero]
    | j + 1 =>
      rw [List.getElem?_cons_succ] at hj
      obtain ⟨hd, avail2, hgo⟩ :=
        validateGo_cons oracle text elapsed e rest i0 avail
      rw [hgo, List.getElem?_cons_succ]
      exact ih (i0 + 1) avail2 j ej hj hband

/-- C7: circuit-breaker behaviour of `validate_entities` within a single
invocation (the loop `validateGo` started at index 0 with the oracle
available; `validate_entities` is its first projection).
(1) Once the oracle call for entity `i` fails, no later entity triggers an
oracle call and every later entity passes through unchanged.
(2) With monotone elapsed time, once the cumulative budget is exhausted at
iteration `i`, every iteration from `i` on passes its entity through
unchanged without an oracle call.
(3) An entity outside the medium confidence band 0.60–0.85 never reaches
the oracle and passes through unchanged. -/
theorem validator_circuit_breaker
    (oracle : DetectedEntity → List Char → Option LlmResult)
    (text : List Char) (elapsed : Nat → ℚ)
    (entities : List DetectedEntity) :
    (∀ (i j : Nat) (ei : DetectedEntity), i < j →
      entities[i]? = some ei →
      (validateGo oracle text elapsed 0 true entities)[i]?.map Prod.snd
        = some true →
      oracle ei (extract_context text ei) = none →
      (validateGo oracle text elapsed 0 true entities)[j]?
        = entities[j]?.map (fun e => (e, false))) ∧
    (Monotone elapsed →
      ∀ i j, LLM_TOTAL_BUDGET ≤ elapsed i → i ≤ j →
      (validateGo oracle text elapsed 0 true entities)[j]?
        = entities[j]?.map (fun e => (e, false))) ∧
    (∀ (j : Nat) (ej : DetectedEntity), entities[j]? = some ej →
      (ej.confidence < LLM_CONFIDENCE_LOW
        ∨ LLM_CONFIDENCE_HIGH < ej.confidence) →
      (validateGo oracle text elapsed 0 true entities)[j]? = some (ej, false)) := by
  refine ⟨?_, ?_, ?_⟩
  · intro i j ei hij hei hcall hfail
    exact validateGo_breaker oracle text elapsed entities 0 true i j ei hij hei
      hcall hfail
  · intro hmono i j hbud hij
    have hb2 : LLM_TOTAL_BUDGET ≤ elapsed (0 + j) := by
      rw [Nat.zero_add]
      exact le_trans hbud (hmono hij)
    exact validateGo_budget oracle text elapsed entities 0 true j hb2
  · intro j ej hej hband
    exact validateGo_band oracle text elapsed entities 0 true j ej hej hband

/-- C7 witness: a concrete two-entity run whose first oracle call fails; the
theorem shows the second entity passes through untouched. -/
theorem validator_circuit_breaker_witness :
    (validateGo (fun _ _ => none) "call 555 now".data (fun _ => 0) 0 true
      [⟨5, 8, .PHONE, "555".data, mkRat 7 10, .regex, none, false⟩,
       ⟨9, 12, .PHONE, "now".data, mkRat 7 10, .regex, none, false⟩])[1]?
      = [(⟨5, 8, .PHONE, "555".data, mkRat 7 10, .regex, none, false⟩
            : DetectedEntity),
         ⟨9, 12, .PHONE, "now".data, mkRat 7 10, .regex, none, false⟩][1]?.map
          (fun e => (e, false)) :=
  (validator_circuit_breaker (fun _ _ => none) "call 555 now".data (fun _ => 0)
    [⟨5, 8, .PHONE, "555".data, mkRat 7 10, .regex, none, false⟩,
     ⟨9, 12, .PHONE, "now".data, mkRat 7 10, .regex, none, false⟩]).1
    0 1 ⟨5, 8, .PHONE, "555".data, mkRat 7 10, .regex, none, false⟩
    (by decide) (by decide) (by decide) rfl

-- ---------------------------------------------------------------------------
-- NER adapter: `_detect_presidio` and its quality filters
-- ---------------------------------------------------------------------------

/-- A raw result of the external recognizer capability
(`analyzer.analyze(text, language="en")`): a label, a span and a score. -/
structure RecognizerResult where
  entity_type : List Char
  start : Nat
  stop : Nat
  score : ℚ
  deriving DecidableEq, Repr

/-- `_PRESIDIO_TYPE_MAP` (insertion-ordered dict). -/
def PRESIDIO_TYPE_MAP : List (List Char × PIIType) :=
  [("PERSON".data, .PERSON),
   ("LOCATION".data, .LOCATION),
   ("ORGANIZATION".data, .ORGANIZATION),
   ("EMAIL_ADDRESS".data, .EMAIL),
   ("PHONE_NUMBER".data, .PHONE),
   ("US_SSN".data, .SSN),
   ("CREDIT_CARD".data, .CREDIT_CARD),
   ("IBAN_CODE".data, .IBAN),
   ("IP_ADDRESS".data, .IP_ADDRESS),
   ("NRP".data, .PERSON),
   ("MEDICAL_LICENSE".data, .MEDICAL_RECORD),
   ("US_DRIVER_LICENSE".data, .DRIVERS_LICENSE),
   ("US_PASSPORT".data, .PASSPORT),
   ("UK_NHS".data, .MEDICAL_RECORD),
   ("US_BANK_NUMBER".data, .BANK_ACCOUNT),
   ("US_ITIN".data, .SSN),
   ("AU_ABN".data, .ORGANIZATION),
   ("AU_ACN".data, .ORGANIZATION),
   ("AU_TFN".data, .SSN),
   ("AU_MEDICARE".data, .MEDICAL_RECORD),
   ("IN_AADHAAR".data, .AADHAAR),
   ("IN_PAN".data, .PAN),
   ("IN_ADDRESS".data, .ADDRESS)]

/-- `_PRESIDIO_TYPE_MAP.get(result.entity_type)`. -/
def presidioTypeOf (label : List Char) : Option PIIType :=
  (PRESIDIO_TYPE_MAP.find? (fun kv => kv.1 == label)).map (fun kv => kv.2)

/-- `_NER_BLACKLIST` (a Python set of lowercase strings; written as a list,
membership is what matters). -/
def NER_BLACKLIST : List (List Char) :=
  ["ip", "tcp", "udp", "dns", "ftp", "smtp", "imap", "pop3", "http",
   "https", "ssh", "ssl", "tls", "cors", "rest", "graphql", "oauth",
   "saml", "ldap", "snmp", "mqtt", "grpc", "websocket",
   "json", "xml", "html", "css", "csv", "pdf", "yaml", "toml", "svg",
   "png", "jpg", "gif", "mp4", "wav",
   "api", "api_key", "api key", "url", "uri", "sql", "jwt", "uuid",
   "guid", "regex", "cron", "ascii", "utf", "utf-8", "utf8", "iso",
   "ssn", "vin", "iban", "bic", "ein", "pan", "upi", "otp", "pin",
   "mac", "nfc", "rfid", "gps",
   "unix", "linux", "macos", "windows", "docker", "nginx", "redis",
   "kafka", "kubernetes", "git", "npm", "pip", "aws", "gcp", "azure",
   "utc", "gmt", "est", "pst", "cst", "mst", "ist", "bst", "cet",
   "aest", "jst", "kst",
   "win64", "win32", "x64", "x86", "x86_64", "arm64", "amd64",
   "intel", "mozilla",
   "social security", "api_key", "the", "end",
   "nw", "ne", "sw", "se", "n", "s", "e", "w"].map String.data

/-- `_ORG_PHRASE_BLACKLIST`. -/
def ORG_PHRASE_BLACKLIST : List (List Char) :=
  ["social security", "third-party monitoring systems",
   "third party monitoring systems", "error messages",
   "stack traces", "crash reports", "error logs"].map String.data

/-- Python `str.lower()` (ASCII; all strings involved are ASCII). -/
def pyLower (l : List Char) : List Char := l.map Char.toLower

/-- Python `str.strip()`. -/
def pyStrip (l : List Char) : List Char :=
  ((l.dropWhile Char.isWhitespace).reverse.dropWhile Char.isWhitespace).reverse

/-- Python `str.split()` with no arguments: split on whitespace runs,
dropping empty pieces. -/
def pySplitWs (l : List Char) : List (List Char) :=
  (l.splitOnP (fun c => c.isWhitespace)).filter (fun w => !w.isEmpty)

/-- Python `str.isupper()` (ASCII): at least one cased character and no
lowercase cased character. -/
def pyIsUpper (v : List Char) : Bool :=
  v.any (fun c => c.isAlpha) && v.all (fun c => !c.isLower)

/-- Python substring test `sub in l`. -/
def isSubstring (sub : List Char) : List Char → Bool
  | [] => sub.isEmpty
  | c :: rest => sub.isPrefixOf (c :: rest) || isSubstring sub rest

/-- First match of the regex `\s[-–—]\s` in a string: the index of the first
whitespace–dash–whitespace separator (`sep.start()`), used to trim PERSON
entities. -/
def findSep : List Char → Option Nat
  | c1 :: c2 :: c3 :: rest =>
    if c1.isWhitespace && (c2 == '-' || c2 == '–' || c2 == '—') && c3.isWhitespace
    then some 0
    else (findSep (c2 :: c3 :: rest)).map (fun i => i + 1)
  | _ => none

/-- `_looks_like_person`. -/
def looks_like_person (value : List Char) : Bool :=
  let v := pyStrip value
  if v.isEmpty || !(v.any (fun c => c.isAlpha)) then false
  else if decide (v.length < 6) && pyIsUpper v && !(v.contains ' ') then false
  else if v.contains '=' || v.contains ':' then false
  else if (pySplitWs v).length == 1
      && (match v with | [] => false | c :: _ => c.isLower) then false
  else if v.all (fun c => "0123456789abcdefABCDEF-_ ".data.contains c) then false
  else if v.any (fun c => c.isDigit) then false
  else true

/-- The Base64-ish alphabet used by `_looks_like_organization`. -/
def B64CHARS : List Char :=
  "ABCDEFGHIJKLMNOPQRSTUVWXYZabcdefghijklmnopqrstuvwxyz0123456789+/=".data

/-- The organization-indicative substrings of `_looks_like_organization`. -/
def ORG_WORDS : List (List Char) :=
  ["inc", "ltd", "corp", "llc", "co", "group", "bank", "systems"].map String.data

/-- `_looks_like_organization`. -/
def looks_like_organization (value : List Char) : Bool :=
  let v := pyStrip value
  let low := pyLower v
  if ORG_PHRASE_BLACKLIST.contains low then false
  else if !(v.contains ' ') && decide (v.length ≤ 5) && pyIsUpper v then false
  else if decide (15 < v.length) && v.all (fun c => B64CHARS.contains c) then false
  else if v.any (fun c => c.isDigit)
      && !(ORG_WORDS.any (fun w => isSubstring w low)) then false
  else true

/-- Python `round(x, 2)` (round-half-to-even), computed exactly on the
rational: `n` is the nearest integer to `100 * q`, ties to even.  (The
comparison of the fractional part with 1/2 is done by cross-multiplication
on the exact numerator and denominator.) -/
def pyRound2 (q : ℚ) : ℚ :=
  let num := q.num * 100
  let den : Int := q.den
  let fl := Int.fdiv num den
  let rem := num - fl * den
  let n : Int :=
    if 2 * rem < den then fl
    else if den < 2 * rem then fl + 1
    else if fl % 2 = 0 then fl else fl + 1
  mkRat n 100

/-- The PERSON trimming of `_detect_presidio` (lines 553–559): cut the value
at the first whitespace–dash–whitespace separator and recompute the end
offset; the new value and end offset are returned. -/
def personTrim (value : List Char) (start stop : Nat) : List Char × Nat :=
  match findSep value with
  | some i => (value.take i, start + (value.take i).length)
  | none => (value, stop)

/-- The final three plausibility filters of the `_detect_presidio` loop body
(lines 562–571) and the entity construction, after PERSON trimming has
produced the final value `value2` and end offset `result_end`. -/
def presidioCheck (start : Nat) (pii_type : PIIType) (score : ℚ)
    (value2 : List Char) (result_end : Nat) : Option DetectedEntity :=
  if pii_type = PIIType.PERSON && !(looks_like_person value2) then none
  else if pii_type = PIIType.ORGANIZATION
      && !(looks_like_organization value2) then none
  else if pii_type = PIIType.EMAIL
      && (value2.contains '/' || value2.contains '?') then none
  else some ⟨start, result_end, pii_type, value2,
    pyRound2 score, .presidio, none, false⟩

/-- The `_detect_presidio` loop body after the type has been mapped: score
floor, lexical blacklist, PERSON trimming, then the plausibility filters. -/
def presidioFiltered (text : List Char) (result : RecognizerResult)
    (pii_type : PIIType) : Option DetectedEntity :=
  if result.score < mkRat 6 10 then none  -- score floor
  else if NER_BLACKLIST.contains
      (pyStrip (pyLower (pySlice text result.start result.stop))) then none
  else
    -- trim PERSON entities that grabbed non-name trailing text
    let trimmed : List Char × Nat :=
      if pii_type = PIIType.PERSON
      then personTrim (pySlice text result.start result.stop)
        result.start result.stop
      else (pySlice text result.start result.stop, result.stop)
    presidioCheck result.start pii_type result.score trimmed.1 trimmed.2

/-- The body of the `for result in results` loop of `_detect_presidio`:
results whose `entity_type` is absent from `_PRESIDIO_TYPE_MAP` are skipped,
the rest go through the filters. -/
def presidioOne (text : List Char) (result : RecognizerResult) :
    Option DetectedEntity :=
  (presidioTypeOf result.entity_type).bind (presidioFiltered text result)

/-- `_detect_presidio`, with the external recognizer's raw results as the
capability input. -/
def detect_presidio (text : List Char) (recResults : List RecognizerResult) :
    List DetectedEntity :=
  recResults.filterMap (presidioOne text)

-- ---------------------------------------------------------------------------
-- Structured layer: `_detect_regex` (src/tools/detect_pii.py, lines 286–390)
-- ---------------------------------------------------------------------------

/-- `_REGEX_PATTERNS`, in registration order: the `(PIIType, confidence)`
of each compiled pattern (the regex source itself lives in the external
`re` engine; the table's order fixes which matches the engine's `i`-th
pattern contributes). -/
def REGEX_PATTERNS : List (PIIType × ℚ) :=
  [(.EMAIL, mkRat 95 100),
   (.PHONE, mkRat 85 100), (.PHONE, mkRat 80 100), (.PHONE, mkRat 75 100),
   (.SSN, mkRat 90 100), (.SSN, mkRat 90 100), (.SSN, mkRat 85 100),
   (.SSN, mkRat 40 100),
   (.CREDIT_CARD, mkRat 90 100), (.CREDIT_CARD, mkRat 90 100),
   (.CREDIT_CARD, mkRat 90 100), (.CREDIT_CARD, mkRat 90 100),
   (.CREDIT_CARD, mkRat 70 100),
   (.API_KEY, mkRat 95 100), (.API_KEY, mkRat 95 100),
   (.API_KEY, mkRat 95 100), (.API_KEY, mkRat 95 100),
   (.API_KEY, mkRat 85 100), (.API_KEY, mkRat 90 100),
   (.API_KEY, mkRat 80 100),
   (.AADHAAR, mkRat 75 100),
   (.PAN, mkRat 90 100),
   (.PASSPORT, mkRat 60 100), (.PASSPORT, mkRat 55 100),
   (.DRIVERS_LICENSE, mkRat 45 100),
   (.IBAN, mkRat 85 100),
   (.BANK_ACCOUNT, mkRat 50 100),
   (.DATE_OF_BIRTH, mkRat 65 100), (.DATE_OF_BIRTH, mkRat 65 100),
   (.DATE_OF_BIRTH, mkRat 55 100), (.DATE_OF_BIRTH, mkRat 55 100),
   (.MEDICAL_RECORD, mkRat 85 100),
   (.IP_ADDRESS, mkRat 80 100), (.IP_ADDRESS, mkRat 80 100),
   (.MAC_ADDRESS, mkRat 85 100),
   (.VIN, mkRat 50 100),
   (.ADDRESS, mkRat 85 100),
   (.URL_WITH_CREDENTIALS, mkRat 95 100),
   (.UPI_ID, mkRat 90 100),
   (.USERNAME_PASSWORD, mkRat 90 100), (.USERNAME_PASSWORD, mkRat 80 100),
   (.CRYPTO_WALLET, mkRat 75 100), (.CRYPTO_WALLET, mkRat 80 100),
   (.CRYPTO_WALLET, mkRat 85 100),
   (.UK_NI_NUMBER, mkRat 85 100),
   (.CANADIAN_SIN, mkRat 60 100),
   (.US_EIN, mkRat 65 100),
   (.VEHICLE_PLATE, mkRat 70 100), (.VEHICLE_PLATE, mkRat 45 100),
   (.VEHICLE_PLATE, mkRat 65 100),
   (.SWIFT_BIC, mkRat 55 100)]

/-- `_JSON_PII_KEYS` (insertion-ordered dict). -/
def JSON_PII_KEYS : List (List Char × PIIType) :=
  [("ssn".data, .SSN), ("social_security".data, .SSN),
   ("user".data, .CREDENTIAL), ("username".data, .CREDENTIAL),
   ("login".data, .CREDENTIAL), ("account".data, .CREDENTIAL),
   ("token".data, .CREDENTIAL), ("tokens".data, .CREDENTIAL),
   ("secret".data, .CREDENTIAL), ("password".data, .CREDENTIAL),
   ("api_key".data, .API_KEY), ("apikey".data, .API_KEY),
   ("email".data, .EMAIL), ("mail".data, .EMAIL),
   ("phone".data, .PHONE), ("mobile".data, .PHONE),
   ("name".data, .PERSON), ("full_name".data, .PERSON),
   ("card".data, .CREDIT_CARD), ("cards".data, .CREDIT_CARD),
   ("cc".data, .CREDIT_CARD), ("credit_card".data, .CREDIT_CARD),
   ("address".data, .ADDRESS), ("addr".data, .ADDRESS),
   ("aadhaar".data, .AADHAAR), ("pan".data, .PAN)]

/-- `_JSON_PII_KEYS.get(key)`. -/
def jsonKeyType (key : List Char) : Option PIIType :=
  (JSON_PII_KEYS.find? (fun kv => kv.1 == key)).map (fun kv => kv.2)

/-- One match of the JSON-structure pattern
`"(key)"\s*:\s*(?:"(val)"|\[(arr)\])`: the span of the key group and the
optional spans of the string-value and array-value groups (a group that did
not participate is `none`, as `match.group(i)` is `None` in Python). -/
structure JsonMatch where
  key : Nat × Nat
  strVal : Option (Nat × Nat)
  arrVal : Option (Nat × Nat)
  deriving DecidableEq, Repr

/-- The external Python `re` engine, specialised to the one input text:
the group-0 spans of `_REGEX_PATTERNS[i].finditer(text)`, the group-1 spans
of the embedded-email pattern, the group spans of the JSON-structure
pattern, the group-2 spans of the `token=VALUE` pattern, the group-1 spans
of the inner `"([^"]{2,})"` scan over a given array body, and the
`_DOB_CONTEXT_KEYWORDS.search` test on a given window. -/
structure RegexEngine where
  patMatches : Nat → List (Nat × Nat)
  emailMatches : List (Nat × Nat)
  jsonMatches : List JsonMatch
  tokenMatches : List (Nat × Nat)
  arrayMatches : List Char → List (Nat × Nat)
  dobContext : List Char → Bool

/-- `_has_dob_context`: run the DOB keyword search over the ±40-character
window around the match. -/
def has_dob_context (eng : RegexEngine) (text : List Char) (s e : Nat) : Bool :=
  eng.dobContext (pySlice text (s - 40) (min text.length (e + 40)))

/-- The string-value branch of the JSON loop: append a 0.85-confidence
entity at the group-2 span unless the exact span was already detected. -/
def jsonString (text : List Char) (acc : List DetectedEntity)
    (pii_type : PIIType) (s : Nat × Nat) : List DetectedEntity :=
  if acc.any (fun r => r.start == s.1 && r.stop == s.2) then acc
  else acc ++ [⟨s.1, s.2, pii_type, pySlice text s.1 s.2, mkRat 85 100,
    .regex, none, false⟩]

/-- One element of the array-value branch: the entity's offsets are
`array_offset + arr_match.start(1)` and `array_offset + arr_match.end(1)`,
while its value is the group text of the *inner* match (a slice of the
array body, not of the whole text). -/
def jsonArrayStep (array_text : List Char) (array_offset : Nat)
    (pii_type : PIIType) (acc : List DetectedEntity) (t : Nat × Nat) :
    List DetectedEntity :=
  if acc.any (fun r => r.start == array_offset + t.1
      && r.stop == array_offset + t.2) then acc
  else acc ++ [⟨array_offset + t.1, array_offset + t.2, pii_type,
    pySlice array_text t.1 t.2, mkRat 80 100, .regex, none, false⟩]

/-- Python truthiness of an optional group's text. -/
def groupTruthy (text : List Char) : Option (Nat × Nat) → Bool
  | none => false
  | some s => !(pySlice text s.1 s.2).isEmpty

/-- One iteration of the JSON-structure loop: look the lowercased key up,
then take the string-value branch (`if match.group(2)`), the array-value
branch (`elif match.group(3)`), or nothing. -/
def jsonStep (text : List Char) (eng : RegexEngine)
    (acc : List DetectedEntity) (m : JsonMatch) : List DetectedEntity :=
  match jsonKeyType (pyLower (pySlice text m.key.1 m.key.2)) with
  | none => acc
  | some pii_type =>
    if groupTruthy text m.strVal then
      match m.strVal with
      | some s => jsonString text acc pii_type s
      | none => acc
    else if groupTruthy text m.arrVal then
      match m.arrVal with
      | some s => (eng.arrayMatches (pySlice text s.1 s.2)).foldl
          (jsonArrayStep (pySlice text s.1 s.2) s.1 pii_type) acc
      | none => acc
    else acc

/-- One iteration of the `token=VALUE` loop: a 0.85-confidence CREDENTIAL
at the group-2 span unless the exact span was already detected. -/
def tokenStep (text : List Char) (acc : List DetectedEntity)
    (s : Nat × Nat) : List DetectedEntity :=
  if acc.any (fun r => r.start == s.1 && r.stop == s.2) then acc
  else acc ++ [⟨s.1, s.2, .CREDENTIAL, pySlice text s.1 s.2, mkRat 85 100,
    .regex, none, false⟩]

/-- `_detect_regex`: the pattern-table loop (with the DOB context guard),
then the embedded-email loop, then the JSON-structure loop, then the
`token=VALUE` loop, each appending to the running results list. -/
def detect_regex (text : List Char) (eng : RegexEngine) :
    List DetectedEntity :=
  let r1 := REGEX_PATTERNS.enum.flatMap (fun pr =>
    (eng.patMatches pr.1).filterMap (fun s =>
      if pr.2.1 = PIIType.DATE_OF_BIRTH
          && !(has_dob_context eng text s.1 s.2) then none
      else some ⟨s.1, s.2, pr.2.1, pySlice text s.1 s.2, pr.2.2,
        .regex, none, false⟩))
  let r2 := r1 ++ eng.emailMatches.map (fun s =>
    ⟨s.1, s.2, .EMAIL, pySlice text s.1 s.2, mkRat 95 100,
      .regex, none, false⟩)
  let r3 := eng.jsonMatches.foldl (jsonStep text eng) r2
  eng.tokenMatches.foldl (tokenStep text) r3

/-- Well-formedness of the engine's inner array-scan spans: over any array
body it is actually asked to scan, the group-1 spans are ordered and lie
within the body.  (This is the `re` contract for `arr_match.start(1) ≤
arr_match.end(1) ≤ len(array_text)`; it is the only engine fact the span
integrity of `_detect_regex` needs.) -/
def EngineWF (text : List Char) (eng : RegexEngine) : Prop :=
  ∀ m ∈ eng.jsonMatches, ∀ s ∈ m.arrVal.toList,
    ∀ t ∈ eng.arrayMatches (pySlice text s.1 s.2),
      t.1 ≤ t.2 ∧ t.2 ≤ (pySlice text s.1 s.2).length

instance (text : List Char) (eng : RegexEngine) :
    Decidable (EngineWF text eng) := by
  unfold EngineWF
  exact inferInstance

-- ---------------------------------------------------------------------------
-- `detect` (src/tools/detect_pii.py)
-- ---------------------------------------------------------------------------

/-- Python `not text or not text.strip()`. -/
def isBlank (text : List Char) : Bool := text.all (fun c => c.isWhitespace)

/-- `detect`: the public entry point.  The `re` engine's matches, the
recognizer's raw results, the oracle and the clock are the capability
inputs; `use_llm` is the explicit `use_llm`/`enable_validation` argument
(the `None`-means-config default is irrelevant here since we always pass a
concrete flag). -/
def detect (text : List Char) (eng : RegexEngine)
    (recResults : List RecognizerResult) (use_presidio use_llm : Bool)
    (oracle : DetectedEntity → List Char → Option LlmResult)
    (elapsed : Nat → ℚ) : List DetectedEntity :=
  if isBlank text then []
  else
    let regex_results := detect_regex text eng
    let merged := if use_presidio
      then merge_results regex_results (detect_presidio text recResults)
      else sortSE regex_results
    if use_llm then
      (validate_entities oracle elapsed merged text).filter
        (fun e => decide (REDACTION_THRESHOLD ≤ e.confidence))
    else merged

-- ---------------------------------------------------------------------------
-- C5: span integrity of `detect`
-- ---------------------------------------------------------------------------

/-- The PERSON trimming preserves span integrity: applied to a value that is
a slice of the text, it yields a value that is the slice at the recomputed
end offset. -/
theorem personTrim_spec (text : List Char) {a b : Nat} (hab : a ≤ b)
    (hb : b ≤ text.length) :
    (personTrim (pySlice text a b) a b).1
      = pySlice text a (personTrim (pySlice text a b) a b).2 := by
  unfold personTrim
  cases hsep : findSep (pySlice text a b) with
  | none => rfl
  | some i =>
    show (pySlice text a b).take i
      = pySlice text a (a + ((pySlice text a b).take i).length)
    have hlen : (pySlice text a b).length = b - a := by
      rw [pySlice_len_le]; omega
    by_cases hi : i ≤ (pySlice text a b).length
    · have hki : ((pySlice text a b).take i).length = i := by
        rw [List.length_take]; omega
      rw [hki]
      exact take_pySlice text (by omega)
    · have h1 : (pySlice text a b).take i = pySlice text a b :=
        List.take_of_length_le (by omega)
      rw [h1, hlen]
      have h2 : a + (b - a) = b := by omega
      rw [h2]

/-- `presidioCheck` only ever returns the entity assembled from the final
value, start and end offsets it was given. -/
theorem presidioCheck_integrity {s : Nat} {pt : PIIType} {sc : ℚ}
    {v2 : List Char} {re : Nat} {e : DetectedEntity}
    (he : presidioCheck s pt sc v2 re = some e) :
    e.start = s ∧ e.stop = re ∧ e.value = v2 := by
  unfold presidioCheck at he
  split at he
  · exact Option.noConfusion he
  split at he
  · exact Option.noConfusion he
  split at he
  · exact Option.noConfusion he
  injection he with he
  subst he
  exact ⟨rfl, rfl, rfl⟩

/-- Any entity produced by the per-result body of `_detect_presidio` from a
well-formed recognizer span records exactly the slice of the text at its
(possibly trimmed) span. -/
theorem presidioOne_integrity {text : List Char} {r : RecognizerResult}
    (hr1 : r.start ≤ r.stop) (hr2 : r.stop ≤ text.length)
    {e : DetectedEntity} (he : presidioOne text r = some e) :
    e.value = pySlice text e.start e.stop := by
  unfold presidioOne at he
  rw [Option.bind_eq_some] at he
  obtain ⟨pt, hmap, hf⟩ := he
  unfold presidioFiltered at hf
  by_cases hsc : r.score < mkRat 6 10
  · rw [if_pos hsc] at hf; exact Option.noConfusion hf
  rw [if_neg hsc] at hf
  by_cases hbl : NER_BLACKLIST.contains
      (pyStrip (pyLower (pySlice text r.start r.stop))) = true
  · rw [if_pos hbl] at hf; exact Option.noConfusion hf
  rw [if_neg hbl] at hf
  obtain ⟨h1, h2, h3⟩ := presidioCheck_integrity hf
  rw [h1, h2, h3]
  by_cases hpt : pt = PIIType.PERSON
  · rw [if_pos hpt]
    exact personTrim_spec text hr1 hr2
  · rw [if_neg hpt]

/-- Every entity emitted by `_detect_presidio` from well-formed recognizer
spans satisfies the span-integrity invariant. -/
theorem detect_presidio_integrity {text : List Char}
    {recResults : List RecognizerResult}
    (hrec : ∀ r ∈ recResults, r.start ≤ r.stop ∧ r.stop ≤ text.length) :
    ∀ e ∈ detect_presidio text recResults,
      e.value = pySlice text e.start e.stop := by
  intro e he
  unfold detect_presidio at he
  rw [List.mem_filterMap] at he
  obtain ⟨r, hr, hsome⟩ := he
  exact presidioOne_integrity (hrec r hr).1 (hrec r hr).2 hsome

/-- A fold whose every step preserves a property of all list members
preserves it overall. -/
theorem foldl_mem_preserve {α β : Type} {P : β → Prop} (f : List β → α → List β) :
    ∀ (l : List α) (acc : List β),
      (∀ acc2 a, a ∈ l → (∀ x ∈ acc2, P x) → ∀ x ∈ f acc2 a, P x) →
      (∀ x ∈ acc, P x) → ∀ x ∈ l.foldl f acc, P x := by
  intro l
  induction l with
  | nil => intro acc _ hacc; exact hacc
  | cons a l ih =>
    intro acc hstep hacc
    rw [List.foldl_cons]
    exact ih (f acc a)
      (fun acc2 b hb => hstep acc2 b (List.mem_cons_of_mem a hb))
      (hstep acc a (List.mem_cons_self a l) hacc)

/-- The JSON string-value branch preserves span integrity: the appended
entity records the slice at its own span. -/
theorem jsonString_integrity {text : List Char} {pt : PIIType} {s : Nat × Nat}
    {acc : List DetectedEntity}
    (hacc : ∀ x ∈ acc, x.value = pySlice text x.start x.stop) :
    ∀ x ∈ jsonString text acc pt s, x.value = pySlice text x.start x.stop := by
  intro x hx
  unfold jsonString at hx
  split at hx
  · exact hacc x hx
  · rcases List.mem_append.mp hx with h | h
    · exact hacc x h
    · have hxe : x = ⟨s.1, s.2, pt, pySlice text s.1 s.2, mkRat 85 100,
          .regex, none, false⟩ := by simpa using h
      rw [hxe]

/-- The JSON array-value branch preserves span integrity: the value is a
slice of the array body, which the offset arithmetic re-bases to a slice of
the whole text (`pySlice_pySlice`). -/
theorem jsonArrayStep_integrity {text : List Char} {o1 o2 : Nat}
    {pt : PIIType} {t : Nat × Nat}
    (ht : t.1 ≤ t.2 ∧ t.2 ≤ (pySlice text o1 o2).length)
    {acc : List DetectedEntity}
    (hacc : ∀ x ∈ acc, x.value = pySlice text x.start x.stop) :
    ∀ x ∈ jsonArrayStep (pySlice text o1 o2) o1 pt acc t,
      x.value = pySlice text x.start x.stop := by
  intro x hx
  unfold jsonArrayStep at hx
  split at hx
  · exact hacc x hx
  · rcases List.mem_append.mp hx with h | h
    · exact hacc x h
    · have hxe : x = ⟨o1 + t.1, o1 + t.2, pt,
          pySlice (pySlice text o1 o2) t.1 t.2, mkRat 80 100,
          .regex, none, false⟩ := by simpa using h
      rw [hxe]
      exact pySlice_pySlice text t.1 ht.2

/-- One JSON-loop iteration preserves span integrity, given the engine's
array-scan well-formedness for this match. -/
theorem jsonStep_integrity {text : List Char} {eng : RegexEngine}
    {m : JsonMatch}
    (hm : ∀ s ∈ m.arrVal.toList,
      ∀ t ∈ eng.arrayMatches (pySlice text s.1 s.2),
        t.1 ≤ t.2 ∧ t.2 ≤ (pySlice text s.1 s.2).length)
    {acc : List DetectedEntity}
    (hacc : ∀ x ∈ acc, x.value = pySlice text x.start x.stop) :
    ∀ x ∈ jsonStep text eng acc m, x.value = pySlice text x.start x.stop := by
  intro x hx
  unfold jsonStep at hx
  split at hx
  · exact hacc x hx
  split at hx
  · split at hx
    · exact jsonString_integrity hacc x hx
    · exact hacc x hx
  split at hx
  · split at hx
    · rename_i s heq
      exact foldl_mem_preserve _ _ _
        (fun acc2 t htm hacc2 =>
          jsonArrayStep_integrity
            (hm s (Option.mem_toList.mpr (Option.mem_def.mpr heq)) t htm)
            hacc2)
        hacc x hx
    · exact hacc x hx
  · exact hacc x hx

/-- One `token=VALUE` iteration preserves span integrity. -/
theorem tokenStep_integrity {text : List Char} {s : Nat × Nat}
    {acc : List DetectedEntity}
    (hacc : ∀ x ∈ acc, x.value = pySlice text x.start x.stop) :
    ∀ x ∈ tokenStep text acc s, x.value = pySlice text x.start x.stop := by
  intro x hx
  unfold tokenStep at hx
  split at hx
  · exact hacc x hx
  · rcases List.mem_append.mp hx with h | h
    · exact hacc x h
    · have hxe : x = ⟨s.1, s.2, .CREDENTIAL, pySlice text s.1 s.2,
          mkRat 85 100, .regex, none, false⟩ := by simpa using h
      rw [hxe]

/-- Span integrity of the whole structured layer `_detect_regex`: every
entity it returns — pattern-table matches, embedded e-mails, JSON string
and array values (with their re-based offsets), and `token=VALUE` hits —
records exactly the slice of the text at its span, given only the engine's
array-scan well-formedness. -/
theorem detect_regex_integrity (text : List Char) (eng : RegexEngine)
    (hwf : EngineWF text eng) :
    ∀ e ∈ detect_regex text eng, e.value = pySlice text e.start e.stop := by
  have h1 : ∀ e ∈ REGEX_PATTERNS.enum.flatMap (fun pr =>
      (eng.patMatches pr.1).filterMap (fun s =>
        if pr.2.1 = PIIType.DATE_OF_BIRTH
            && !(has_dob_context eng text s.1 s.2) then none
        else some (⟨s.1, s.2, pr.2.1, pySlice text s.1 s.2, pr.2.2,
          .regex, none, false⟩ : DetectedEntity))),
      e.value = pySlice text e.start e.stop := by
    intro e he
    rw [List.mem_flatMap] at he
    obtain ⟨pr, _, he2⟩ := he
    rw [List.mem_filterMap] at he2
    obtain ⟨s, _, hsome⟩ := he2
    split at hsome
    · exact Option.noConfusion hsome
    · injection hsome with hsome
      rw [← hsome]
  have h2 : ∀ e ∈ REGEX_PATTERNS.enum.flatMap (fun pr =>
      (eng.patMatches pr.1).filterMap (fun s =>
        if pr.2.1 = PIIType.DATE_OF_BIRTH
            && !(has_dob_context eng text s.1 s.2) then none
        else some (⟨s.1, s.2, pr.2.1, pySlice text s.1 s.2, pr.2.2,
          .regex, none, false⟩ : DetectedEntity)))
      ++ eng.emailMatches.map (fun s =>
        (⟨s.1, s.2, .EMAIL, pySlice text s.1 s.2, mkRat 95 100,
          .regex, none, false⟩ : DetectedEntity)),
      e.value = pySlice text e.start e.stop := by
    intro e he
    rcases List.mem_append.mp he with h | h
    · exact h1 e h
    · obtain ⟨s, _, hse⟩ := List.mem_map.mp h
      rw [← hse]
  intro e he
  unfold detect_regex at he
  refine @foldl_mem_preserve (Nat × Nat) DetectedEntity
    (fun x => x.value = pySlice text x.start x.stop)
    (tokenStep text) eng.tokenMatches _ ?_ ?_ e he
  · intro acc2 s _ hacc2
    exact tokenStep_integrity hacc2
  refine @foldl_mem_preserve JsonMatch DetectedEntity
    (fun x => x.value = pySlice text x.start x.stop)
    (jsonStep text eng) eng.jsonMatches _ ?_ h2
  intro acc2 m hmm hacc2
  exact jsonStep_integrity (hwf m hmm) hacc2

/-- C5 (span integrity): every entity in the list returned by `detect`
satisfies `value == text[start:end]` — the structured layer's pattern,
embedded-value and JSON-array extractions are computed by the embedded
`_detect_regex` (only the engine's array-scan spans are assumed well
formed), the PERSON trailing-clause trimming is shown to keep the
invariant, and merging, validation and the threshold filter preserve it. -/
theorem detect_span_integrity (text : List Char) (eng : RegexEngine)
    (recResults : List RecognizerResult)
    (use_presidio use_llm : Bool)
    (oracle : DetectedEntity → List Char → Option LlmResult)
    (elapsed : Nat → ℚ)
    (hwf : EngineWF text eng)
    (hrec : ∀ r ∈ recResults, r.start ≤ r.stop ∧ r.stop ≤ text.length) :
    ∀ e ∈ detect text eng recResults use_presidio use_llm
        oracle elapsed,
      e.value = pySlice text e.start e.stop := by
  intro e he
  unfold detect at he
  by_cases hb : isBlank text = true
  · rw [if_pos hb] at he
    exact absurd he (List.not_mem_nil e)
  rw [if_neg hb] at he
  have hmerged : ∀ x ∈ (if use_presidio = true
      then merge_results (detect_regex text eng)
        (detect_presidio text recResults)
      else sortSE (detect_regex text eng)),
      x.value = pySlice text x.start x.stop := by
    by_cases hp : use_presidio = true
    · rw [if_pos hp]
      intro x hx
      rcases merge_results_mem x hx with h | h
      · exact detect_regex_integrity text eng hwf x h
      · exact detect_presidio_integrity hrec x h
    · rw [if_neg hp]
      intro x hx
      unfold sortSE at hx
      exact detect_regex_integrity text eng hwf x
        ((mem_sortStable leStartEnd).mp hx)
  by_cases hl : use_llm = true
  · rw [if_pos hl] at he
    have he2 := List.mem_of_mem_filter he
    have hfr := validate_entities_preserves oracle elapsed
      (if use_presidio = true
        then merge_results (detect_regex text eng)
          (detect_presidio text recResults)
        else sortSE (detect_regex text eng)) text
    obtain ⟨a, ha, hrel⟩ := forall₂_mem_right hfr e he2
    rw [hrel.2.2.2.1, hrel.1, hrel.2.1]
    exact hmerged a ha
  · rw [if_neg hl] at he
    exact hmerged e he

/-- Concrete text for the C5 witness: a JSON array value (exercising the
embedded-value offset arithmetic) followed by a PERSON span that triggers
the trailing-clause trimming. -/
def c5Text : List Char :=
  "\"mail\": [\"bob@x.io\"] Michael Thompson - Case 7".data

/-- Engine matches for the C5 witness: one JSON-structure match with key
`mail` at 1–5 and array body at 9–19; the inner scan of the array body
`"bob@x.io"` finds its group at 1–9. -/
def c5Eng : RegexEngine :=
  ⟨fun _ => [], [], [⟨(1, 5), none, some (9, 19)⟩], [],
   fun sub => if sub = ("\"bob@x.io\"".data) then [(1, 9)] else [],
   fun _ => false⟩

/-- Recognizer output for the C5 witness: PERSON over
`"Michael Thompson - Case 7"` (offsets 21–46). -/
def c5Recs : List RecognizerResult :=
  [⟨"PERSON".data, 21, 46, mkRat 85 100⟩]

/-- C5 witness: `detect_span_integrity` applied at a concrete input in
which the structured layer extracts an embedded array value (re-based
offsets 10–18) and the recognizer span is PERSON-trimmed; both hypotheses
are discharged by evaluation. -/
theorem detect_span_integrity_witness :
    EngineWF c5Text c5Eng ∧
    (∀ r ∈ c5Recs, r.start ≤ r.stop ∧ r.stop ≤ c5Text.length) ∧
    ∀ e ∈ detect c5Text c5Eng c5Recs true false (fun _ _ => none)
        (fun _ => 0),
      e.value = pySlice c5Text e.start e.stop :=
  ⟨by decide, by decide,
    detect_span_integrity c5Text c5Eng c5Recs true false (fun _ _ => none)
      (fun _ => 0) (by decide) (by decide)⟩

-- ---------------------------------------------------------------------------
-- C2: fail-open behaviour of `detect` with validation enabled
-- ---------------------------------------------------------------------------

/-- Engine matches for the C2 counterexample: the low-confidence bare-9-digit
SSN pattern (index 7 of `_REGEX_PATTERNS`, confidence 0.40) matches the whole
of `"123456789"`; nothing else matches. -/
def c2Eng : RegexEngine :=
  ⟨fun i => if i = 7 then [(0, 9)] else [], [], [], [],
   fun _ => [], fun _ => false⟩

/-- C2, counterexample to the claim as stated: with an oracle that always
fails, `detect` with validation enabled is NOT numerically identical to
`detect` with validation disabled — the enabled path additionally drops
entities below `REDACTION_THRESHOLD` (here the regex layer's genuine
0.40-confidence SSN entity survives the disabled path but is filtered out
of the enabled one). -/
theorem failopen_counterexample :
    (∀ (e : DetectedEntity) (ctx : List Char),
        (fun (_ : DetectedEntity) (_ : List Char) =>
          (none : Option LlmResult)) e ctx = none) ∧
    detect ("123456789".data) c2Eng [] false true
        (fun _ _ => none) (fun _ => 0)
      ≠ detect ("123456789".data) c2Eng [] false false
        (fun _ _ => none) (fun _ => 0) :=
  ⟨fun _ _ => rfl, by decide⟩

/-- C2 (amended): if every oracle call fails, `detect` with validation
enabled returns exactly the list of `detect` with validation disabled
restricted to entities with confidence at least `REDACTION_THRESHOLD`
(entities pass through validation unchanged — fail-open — but the enabled
path still applies the redaction threshold filter inside `detect`). -/
theorem detect_failopen_threshold (text : List Char) (eng : RegexEngine)
    (recResults : List RecognizerResult)
    (use_presidio : Bool)
    (oracle : DetectedEntity → List Char → Option LlmResult)
    (elapsed : Nat → ℚ)
    (hfail : ∀ e ctx, oracle e ctx = none) :
    detect text eng recResults use_presidio true oracle elapsed
      = (detect text eng recResults use_presidio false
          oracle elapsed).filter
          (fun e => decide (REDACTION_THRESHOLD ≤ e.confidence)) := by
  have hv := validate_entities_failopen hfail elapsed
    (if use_presidio = true
      then merge_results (detect_regex text eng)
        (detect_presidio text recResults)
      else sortSE (detect_regex text eng)) text
  show (if isBlank text = true then ([] : List DetectedEntity) else
      (validate_entities oracle elapsed
        (if use_presidio = true
          then merge_results (detect_regex text eng)
            (detect_presidio text recResults)
          else sortSE (detect_regex text eng)) text).filter
        (fun e => decide (REDACTION_THRESHOLD ≤ e.confidence)))
    = (if isBlank text = true then ([] : List DetectedEntity) else
        (if use_presidio = true
          then merge_results (detect_regex text eng)
            (detect_presidio text recResults)
          else sortSE (detect_regex text eng))).filter
        (fun e => decide (REDACTION_THRESHOLD ≤ e.confidence))
  by_cases hb : isBlank text = true
  · rw [if_pos hb, if_pos hb, List.filter_nil]
  · rw [if_neg hb, if_neg hb, hv]

/-- C2 witness: `detect_failopen_threshold` applied at the counterexample
input, with the always-failing oracle discharged pointwise. -/
theorem detect_failopen_threshold_witness :
    detect ("123456789".data) c2Eng [] false true
        (fun _ _ => none) (fun _ => 0)
      = (detect ("123456789".data) c2Eng [] false false
          (fun _ _ => none) (fun _ => 0)).filter
          (fun e => decide (REDACTION_THRESHOLD ≤ e.confidence)) :=
  detect_failopen_threshold ("123456789".data) c2Eng [] false
    (fun _ _ => none) (fun _ => 0) (fun _ _ => rfl)

end PrivaSend
